import Mathlib

/-!
# Verification of the PyUIWizard reconciliation core

A shallow embedding, in Lean 4, of the algorithmic core of `pyuiwizard.py`
(version 4.2.0): the functional tree differ (`FunctionalDiffer`), the hook
state store (`useState`, `useEffect`), the reactive `Stream`, and the bounded
component expansion (`PyUIWizard._expand_vdom_components`).

Modelling conventions, shared by every definition below:

* Python `None` is `Option.none` (for trees) or `Val.vNone` (for prop values).
* Python dicts are association lists in insertion order; real Python dicts
  never hold duplicate keys, so lemmas that need key-uniqueness take an
  explicit `Nodup`-style hypothesis which holds of every tree the program
  can build.
* Callables are identified by an abstract object identity (`Val.vFun id`);
  two values with the same id model the same Python function object, so
  Python `is` on callables is id equality, and Python `==` on functions
  (which falls back to identity) is the same test.
* Machine concerns (threads, locks, timers, tkinter widgets) are outside the
  pure fragment; time is passed explicitly where the code reads the clock.
-/

set_option autoImplicit false

namespace PyUIWizard

/-- Python values that appear as VDOM props in the program: strings, ints,
booleans, `None`, callables (by object identity), lists and dicts. -/
inductive Val where
  | vStr : String → Val
  | vInt : Int → Val
  | vBool : Bool → Val
  | vNone : Val
  | vFun : Nat → Val
  | vList : List Val → Val
  | vDict : List (String × Val) → Val
deriving Repr

mutual

/-- Decidable structural equality on `Val` (used only to state theorems;
Python's own `==` is `pyEq` below). -/
def Val.beq : Val → Val → Bool
  | .vStr a, .vStr b => a == b
  | .vInt a, .vInt b => a == b
  | .vBool a, .vBool b => a == b
  | .vNone, .vNone => true
  | .vFun a, .vFun b => a == b
  | .vList a, .vList b => Val.beqList a b
  | .vDict a, .vDict b => Val.beqDict a b
  | _, _ => false

def Val.beqList : List Val → List Val → Bool
  | [], [] => true
  | a :: as, b :: bs => Val.beq a b && Val.beqList as bs
  | _, _ => false

def Val.beqDict : List (String × Val) → List (String × Val) → Bool
  | [], [] => true
  | (ka, va) :: as, (kb, vb) :: bs => ka == kb && Val.beq va vb && Val.beqDict as bs
  | _, _ => false

end

mutual

/-- Pairwise value comparison on already key-sorted values: scalars with
Python's numeric `bool`/`int` cross-equality (`True == 1`); identity on
callables (Python functions compare by identity); elementwise on lists;
pairwise on dicts.  This is Python `==` only after `canonVal` has sorted
every dict's entries by key (Python dict `==` ignores insertion order);
`pyEq` below composes the two. -/
def pyEqOrd : Val → Val → Bool
  | .vStr a, .vStr b => a == b
  | .vInt a, .vInt b => a == b
  | .vBool a, .vBool b => a == b
  | .vBool a, .vInt b => (if a then (1 : Int) else 0) == b
  | .vInt a, .vBool b => a == (if b then (1 : Int) else 0)
  | .vNone, .vNone => true
  | .vFun a, .vFun b => a == b
  | .vList a, .vList b => pyEqOrdList a b
  | .vDict a, .vDict b => pyEqOrdDict a b
  | _, _ => false

def pyEqOrdList : List Val → List Val → Bool
  | [], [] => true
  | a :: as, b :: bs => pyEqOrd a b && pyEqOrdList as bs
  | _, _ => false

def pyEqOrdDict : List (String × Val) → List (String × Val) → Bool
  | [], [] => true
  | (ka, va) :: as, (kb, vb) :: bs =>
      ka == kb && pyEqOrd va vb && pyEqOrdDict as bs
  | _, _ => false

end

/-- Lexicographic code-point order on character lists, as Python compares
strings (and as `sort_keys=True` orders JSON keys). -/
def charListLe : List Char → List Char → Bool
  | [], _ => true
  | _ :: _, [] => false
  | a :: as, b :: bs =>
      if a < b then true else if b < a then false else charListLe as bs

/-- Python `s1 <= s2` on strings: lexicographic by code point. -/
def strLe (a b : String) : Bool :=
  charListLe a.data b.data

/-- Insertion sort of dict entries by key (string keys; duplicate keys,
which real Python dicts cannot hold, keep their relative order). -/
def sortPairs (l : List (String × Val)) : List (String × Val) :=
  l.foldr insertPair []
where
  insertPair (p : String × Val) : List (String × Val) → List (String × Val)
    | [] => [p]
    | q :: qs => if strLe p.1 q.1 then p :: q :: qs else q :: insertPair p qs

mutual

/-- Key-sorting canonicalisation: recursively sorts every dict's entries by
key and leaves everything else (in particular list order) alone.  Two
duplicate-key-free dicts are Python `==` exactly when their canonical forms
agree pairwise, which reduces Python's order-insensitive dict equality to
the pairwise `pyEqOrd`. -/
def canonVal : Val → Val
  | .vStr s => .vStr s
  | .vInt n => .vInt n
  | .vBool b => .vBool b
  | .vNone => .vNone
  | .vFun n => .vFun n
  | .vList l => .vList (canonList l)
  | .vDict ps => .vDict (sortPairs (canonDict ps))

def canonList : List Val → List Val
  | [] => []
  | v :: vs => canonVal v :: canonList vs

def canonDict : List (String × Val) → List (String × Val)
  | [] => []
  | (k, v) :: ps => (k, canonVal v) :: canonDict ps

end

/-- Python `==` on prop values (`old_val != new_val` in `_diff_props`,
`current_value == new_value` in `setState`).  Scalars compare with the
numeric `bool`/`int` cross-equality, callables by identity, lists
elementwise, and dicts key-set- and value-wise with insertion order
ignored, as Python dict `==` does: both sides are key-sorted by `canonVal`
and then compared pairwise. -/
def pyEq (a b : Val) : Bool :=
  pyEqOrd (canonVal a) (canonVal b)

/-- Python `is` as used by `_diff_props` on event-handler props
(`old_val is not new_val`): object identity. It is only consulted on
callables, whose identity the embedding carries explicitly. -/
def pyIs : Val → Val → Bool
  | .vFun a, .vFun b => a == b
  | _, _ => false

/-- Python `callable(v)`. -/
def isCallable : Val → Bool
  | .vFun _ => true
  | _ => false

mutual

/-- Python `repr` of a prop value (used by `str` on composite values). -/
def pyRepr : Val → String
  | .vStr s => "'" ++ s ++ "'"
  | .vInt n => toString n
  | .vBool b => if b then "True" else "False"
  | .vNone => "None"
  | .vFun n => "<function at 0x" ++ toString n ++ ">"
  | .vList l => "[" ++ String.intercalate ", " (pyReprList l) ++ "]"
  | .vDict l => "\x7b" ++ String.intercalate ", " (pyReprDict l) ++ "\x7d"

def pyReprList : List Val → List String
  | [] => []
  | v :: vs => pyRepr v :: pyReprList vs

def pyReprDict : List (String × Val) → List String
  | [] => []
  | (k, v) :: ps => ("'" ++ k ++ "': " ++ pyRepr v) :: pyReprDict ps

end

/-- Python `str` of a prop value: a bare string for `str`, otherwise `repr`.
`_diff_props` compares `text`/`value` props with `str(old) != str(new)`. -/
def pyStr : Val → String
  | .vStr s => s
  | v => pyRepr v

/-- Insertion sort by key of already-rendered dict entries, modelling
`json.dumps(..., sort_keys=True)` ordering (sorting keys before rendering
and sorting rendered `(key, entry)` pairs by key coincide). -/
def sortRendered (l : List (String × String)) : List (String × String) :=
  l.foldr insertSorted []
where
  insertSorted (p : String × String) : List (String × String) → List (String × String)
    | [] => [p]
    | q :: qs => if strLe p.1 q.1 then p :: q :: qs else q :: insertSorted p qs

mutual

/-- `json.dumps(v, sort_keys=True)` as `_diff_props` uses it on composite
prop values (string escaping is taken as the identity; the program's props
hold plain identifier-like strings).  Callables are not JSON serialisable:
`none` models the `TypeError` that real `json.dumps` raises on them, which
propagates out of `_diff_props` and aborts the diff. -/
def jsonDumps : Val → Option String
  | .vStr s => some ("\"" ++ s ++ "\"")
  | .vInt n => some (toString n)
  | .vBool b => some (if b then "true" else "false")
  | .vNone => some "null"
  | .vFun _ => none
  | .vList l =>
      (jsonDumpsList l).map fun parts =>
        "[" ++ String.intercalate ", " parts ++ "]"
  | .vDict l =>
      (jsonDumpsDict l).map fun entries =>
        "\x7b" ++
          String.intercalate ", "
            ((sortRendered entries).map fun p =>
              "\"" ++ p.1 ++ "\": " ++ p.2) ++
        "\x7d"

def jsonDumpsList : List Val → Option (List String)
  | [] => some []
  | v :: vs =>
      match jsonDumps v, jsonDumpsList vs with
      | some s, some ss => some (s :: ss)
      | _, _ => none

def jsonDumpsDict : List (String × Val) → Option (List (String × String))
  | [] => some []
  | (k, v) :: ps =>
      match jsonDumps v, jsonDumpsDict ps with
      | some s, some ss => some ((k, s) :: ss)
      | _, _ => none

end

instance : BEq Val := ⟨Val.beq⟩

mutual

theorem Val.beq_refl : ∀ v : Val, Val.beq v v = true
  | .vStr _ => by simp [Val.beq]
  | .vInt _ => by simp [Val.beq]
  | .vBool _ => by simp [Val.beq]
  | .vNone => by simp [Val.beq]
  | .vFun _ => by simp [Val.beq]
  | .vList l => by simp [Val.beq, Val.beqList_refl l]
  | .vDict l => by simp [Val.beq, Val.beqDict_refl l]

theorem Val.beqList_refl : ∀ l : List Val, Val.beqList l l = true
  | [] => by simp [Val.beqList]
  | v :: vs => by simp [Val.beqList, Val.beq_refl v, Val.beqList_refl vs]

theorem Val.beqDict_refl : ∀ l : List (String × Val), Val.beqDict l l = true
  | [] => by simp [Val.beqDict]
  | (k, v) :: ps => by simp [Val.beqDict, Val.beq_refl v, Val.beqDict_refl ps]

end

mutual

theorem Val.beq_eq : ∀ {a b : Val}, Val.beq a b = true → a = b
  | .vStr _, .vStr _, h => by simp [Val.beq] at h; simp [h]
  | .vInt _, .vInt _, h => by simp [Val.beq] at h; simp [h]
  | .vBool _, .vBool _, h => by simp [Val.beq] at h; simp [h]
  | .vNone, .vNone, _ => rfl
  | .vFun _, .vFun _, h => by simp [Val.beq] at h; simp [h]
  | .vList a, .vList b, h => by
      simp [Val.beq] at h
      simp [Val.beqList_eq h]
  | .vDict a, .vDict b, h => by
      simp [Val.beq] at h
      simp [Val.beqDict_eq h]
  | .vStr _, .vInt _, h => by simp [Val.beq] at h
  | .vStr _, .vBool _, h => by simp [Val.beq] at h
  | .vStr _, .vNone, h => by simp [Val.beq] at h
  | .vStr _, .vFun _, h => by simp [Val.beq] at h
  | .vStr _, .vList _, h => by simp [Val.beq] at h
  | .vStr _, .vDict _, h => by simp [Val.beq] at h
  | .vInt _, .vStr _, h => by simp [Val.beq] at h
  | .vInt _, .vBool _, h => by simp [Val.beq] at h
  | .vInt _, .vNone, h => by simp [Val.beq] at h
  | .vInt _, .vFun _, h => by simp [Val.beq] at h
  | .vInt _, .vList _, h => by simp [Val.beq] at h
  | .vInt _, .vDict _, h => by simp [Val.beq] at h
  | .vBool _, .vStr _, h => by simp [Val.beq] at h
  | .vBool _, .vInt _, h => by simp [Val.beq] at h
  | .vBool _, .vNone, h => by simp [Val.beq] at h
  | .vBool _, .vFun _, h => by simp [Val.beq] at h
  | .vBool _, .vList _, h => by simp [Val.beq] at h
  | .vBool _, .vDict _, h => by simp [Val.beq] at h
  | .vNone, .vStr _, h => by simp [Val.beq] at h
  | .vNone, .vInt _, h => by simp [Val.beq] at h
  | .vNone, .vBool _, h => by simp [Val.beq] at h
  | .vNone, .vFun _, h => by simp [Val.beq] at h
  | .vNone, .vList _, h => by simp [Val.beq] at h
  | .vNone, .vDict _, h => by simp [Val.beq] at h
  | .vFun _, .vStr _, h => by simp [Val.beq] at h
  | .vFun _, .vInt _, h => by simp [Val.beq] at h
  | .vFun _, .vBool _, h => by simp [Val.beq] at h
  | .vFun _, .vNone, h => by simp [Val.beq] at h
  | .vFun _, .vList _, h => by simp [Val.beq] at h
  | .vFun _, .vDict _, h => by simp [Val.beq] at h
  | .vList _, .vStr _, h => by simp [Val.beq] at h
  | .vList _, .vInt _, h => by simp [Val.beq] at h
  | .vList _, .vBool _, h => by simp [Val.beq] at h
  | .vList _, .vNone, h => by simp [Val.beq] at h
  | .vList _, .vFun _, h => by simp [Val.beq] at h
  | .vList _, .vDict _, h => by simp [Val.beq] at h
  | .vDict _, .vStr _, h => by simp [Val.beq] at h
  | .vDict _, .vInt _, h => by simp [Val.beq] at h
  | .vDict _, .vBool _, h => by simp [Val.beq] at h
  | .vDict _, .vNone, h => by simp [Val.beq] at h
  | .vDict _, .vFun _, h => by simp [Val.beq] at h
  | .vDict _, .vList _, h => by simp [Val.beq] at h

theorem Val.beqList_eq : ∀ {a b : List Val}, Val.beqList a b = true → a = b
  | [], [], _ => rfl
  | x :: xs, y :: ys, h => by
      simp [Val.beqList] at h
      have h1 := Val.beq_eq h.1
      have h2 := Val.beqList_eq h.2
      simp [h1, h2]
  | [], _ :: _, h => by simp [Val.beqList] at h
  | _ :: _, [], h => by simp [Val.beqList] at h

theorem Val.beqDict_eq : ∀ {a b : List (String × Val)}, Val.beqDict a b = true → a = b
  | [], [], _ => rfl
  | (k, v) :: xs, (k2, v2) :: ys, h => by
      simp [Val.beqDict] at h
      obtain ⟨⟨hk, hv⟩, ht⟩ := h
      have h1 := Val.beq_eq hv
      have h2 := Val.beqDict_eq ht
      simp [hk, h1, h2]
  | [], _ :: _, h => by simp [Val.beqDict] at h
  | _ :: _, [], h => by simp [Val.beqDict] at h

end

instance : LawfulBEq Val where
  eq_of_beq := Val.beq_eq
  rfl := Val.beq_refl _

instance : DecidableEq Val := fun a b =>
  if h : Val.beq a b = true then .isTrue (Val.beq_eq h)
  else .isFalse (fun he => h (he ▸ Val.beq_refl a))

mutual

theorem pyEqOrd_refl : ∀ v : Val, pyEqOrd v v = true
  | .vStr _ => by simp [pyEqOrd]
  | .vInt _ => by simp [pyEqOrd]
  | .vBool _ => by simp [pyEqOrd]
  | .vNone => by simp [pyEqOrd]
  | .vFun _ => by simp [pyEqOrd]
  | .vList l => by simp [pyEqOrd, pyEqOrdList_refl l]
  | .vDict l => by simp [pyEqOrd, pyEqOrdDict_refl l]

theorem pyEqOrdList_refl : ∀ l : List Val, pyEqOrdList l l = true
  | [] => by simp [pyEqOrdList]
  | v :: vs => by simp [pyEqOrdList, pyEqOrd_refl v, pyEqOrdList_refl vs]

theorem pyEqOrdDict_refl : ∀ l : List (String × Val), pyEqOrdDict l l = true
  | [] => by simp [pyEqOrdDict]
  | (k, v) :: ps => by simp [pyEqOrdDict, pyEqOrd_refl v, pyEqOrdDict_refl ps]

end

theorem pyEq_refl (v : Val) : pyEq v v = true :=
  pyEqOrd_refl (canonVal v)

/-!
## The VDOM tree and patch model

A VDOM node is the Python dict `\x7b'type': ..., 'props': ..., 'children':
..., 'key': ...\x7d` built by `create_element`.  The differ runs after
component expansion, so `type` is a primitive tag (string); `key = none`
models both an absent `'key'` entry and `'key': None`, which the differ's
`.get('key')` cannot tell apart.  An absent tree (`old_vdom`/`new_vdom`
being `None`) is `Option.none` at the `diff` entry point.
-/

/-- A VDOM node (`create_element` output, post-expansion). -/
inductive Node where
  | mk : String → Option String → List (String × Val) → List Node → Node
deriving Repr

mutual

def Node.beq : Node → Node → Bool
  | .mk t1 k1 p1 c1, .mk t2 k2 p2 c2 =>
      t1 == t2 && k1 == k2 && p1 == p2 && Node.beqList c1 c2

def Node.beqList : List Node → List Node → Bool
  | [], [] => true
  | a :: as, b :: bs => Node.beq a b && Node.beqList as bs
  | _, _ => false

end

mutual

theorem Node.beqNode_refl : ∀ n : Node, Node.beq n n = true
  | .mk t k p c => by simp [Node.beq, Node.beqNodeList_refl c]

theorem Node.beqNodeList_refl : ∀ l : List Node, Node.beqList l l = true
  | [] => by simp [Node.beqList]
  | n :: ns => by simp [Node.beqList, Node.beqNode_refl n, Node.beqNodeList_refl ns]

end

mutual

theorem Node.beqNode_eq : ∀ {a b : Node}, Node.beq a b = true → a = b
  | .mk t1 k1 p1 c1, .mk t2 k2 p2 c2, h => by
      simp [Node.beq] at h
      obtain ⟨⟨⟨ht, hk⟩, hp⟩, hc⟩ := h
      have := Node.beqNodeList_eq hc
      simp [ht, hk, hp, this]

theorem Node.beqNodeList_eq : ∀ {a b : List Node}, Node.beqList a b = true → a = b
  | [], [], _ => rfl
  | x :: xs, y :: ys, h => by
      simp [Node.beqList] at h
      have h1 := Node.beqNode_eq h.1
      have h2 := Node.beqNodeList_eq h.2
      simp [h1, h2]
  | [], _ :: _, h => by simp [Node.beqList] at h
  | _ :: _, [], h => by simp [Node.beqList] at h

end

instance : BEq Node := ⟨Node.beq⟩

instance : LawfulBEq Node where
  eq_of_beq := Node.beqNode_eq
  rfl := Node.beqNode_refl _

instance : DecidableEq Node := fun a b =>
  if h : Node.beq a b = true then .isTrue (Node.beqNode_eq h)
  else .isFalse (fun he => h (he ▸ Node.beqNode_refl a))

/-- `node.get('type')`. -/
def Node.type : Node → String
  | .mk t _ _ _ => t

/-- `node.get('key')`. -/
def Node.key : Node → Option String
  | .mk _ k _ _ => k

/-- `node.get('props', \x7b\x7d)`. -/
def Node.props : Node → List (String × Val)
  | .mk _ _ p _ => p

/-- `node.get('children', [])`. -/
def Node.children : Node → List Node
  | .mk _ _ _ c => c

/-- One selector of a patch `path`: a positional index (indexed diffing) or
a key (keyed diffing). -/
inductive PathElem where
  | idx : Nat → PathElem
  | key : String → PathElem
deriving Repr, DecidableEq

/-- A patch record as produced by `FunctionalDiffer` (the `DiffType` tag
plus the payload fields the differ stores for that tag).  `REORDER` and
`NONE` exist in `DiffType` but are never produced by the differ. -/
inductive Patch where
  | create : List PathElem → Node → Patch
  | update : List PathElem → List (String × Val) → List String → Patch
  | replace : List PathElem → Node → Node → Patch
  | remove : List PathElem → Option Node → Patch
  | move : List PathElem → String → Nat → Nat → Patch
deriving Repr, DecidableEq

/-- The `path` field of a patch. -/
def Patch.path : Patch → List PathElem
  | .create p _ => p
  | .update p _ _ => p
  | .replace p _ _ => p
  | .remove p _ => p
  | .move p _ _ _ => p

/-!
## The functional differ

Translated from `FunctionalDiffer` (`src/pyuiwizard.py` 202–456).  The
`patch_cache` / `memo` layers return deep copies of previously computed
results for identical inputs, and the `old is new` fast path returns `[]`
for an argument diffed against the very same object; both are transparent
for a pure, deterministic function (`diffNode_self` below proves the fast
path agrees with the recomputation), so the embedding is the uncached
recursion.  The `print` logging is dropped.
-/

/-- The event-handler prop names of `_get_event_handler_props`. -/
def eventHandlerProps : List String :=
  ["onClick", "onDoubleClick", "onRightClick", "onMouseEnter",
   "onMouseLeave", "onMouseMove", "onMouseDown", "onMouseUp",
   "onMouseWheel", "onFocus", "onBlur", "onKeyPress", "onKeyRelease",
   "onKeyDown", "onKeyUp", "onChange", "onSubmit", "onEscape",
   "onTab", "onShiftTab", "onDragStart", "onDrag", "onDragEnd",
   "onDrop", "onResize"]

/-- `props.get(key)`: the stored value, or Python `None` when absent. -/
def propGet (ps : List (String × Val)) (k : String) : Val :=
  match ps.lookup k with
  | some v => v
  | none => .vNone

/-- Whether `_diff_props` puts prop `k` into `changed`, given
`old_val = old_props.get(k)` and `new_val = new_props[k]`.  Mirrors the
three-way branch: `text`/`value` props compare `str()` forms; event-handler
props compare identity when both values are callable and are otherwise never
marked changed; remaining props compare Python `==`, with an extra
canonical-JSON comparison for dict/dict and list/list pairs.  When
`json.dumps` fails on either side (a nested callable) the source raises
`TypeError` and the whole diff aborts, which a total differ cannot return;
that branch is left as `true` here, and every theorem whose scope can reach
it assumes `valJsonSafe` props, on which the branch is never taken. -/
def propChanged (k : String) (oldv newv : Val) : Bool :=
  if k = "text" ∨ k = "value" then
    pyStr oldv ≠ pyStr newv
  else if k ∈ eventHandlerProps then
    if isCallable oldv && isCallable newv then
      if !(pyIs oldv newv) then true else !(pyEq oldv newv)
    else false
  else
    if !(pyEq oldv newv) then
      match oldv, newv with
      | .vDict _, .vDict _ =>
          match jsonDumps oldv, jsonDumps newv with
          | some s1, some s2 => s1 ≠ s2
          | _, _ => true
      | .vList _, .vList _ =>
          match jsonDumps oldv, jsonDumps newv with
          | some s1, some s2 => s1 ≠ s2
          | _, _ => true
      | _, _ => true
    else false

/-- A prop value on which `_diff_props`'s canonical-JSON confirmation cannot
raise `TypeError`: JSON-serialisable whenever it is composite.  A top-level
callable is safe — `json.dumps` is only ever reached on dict/dict or
list/list pairs. -/
def valJsonSafe : Val → Bool
  | .vList l => (jsonDumps (.vList l)).isSome
  | .vDict l => (jsonDumps (.vDict l)).isSome
  | _ => true

/-- `_diff_props` (lines 314–360): the `changed` dict, the `removed` list,
and an `UPDATE` patch exactly when either is non-empty. -/
def diffProps (oldP newP : List (String × Val)) (path : List PathElem) :
    Option Patch :=
  let changed := newP.filter fun p => propChanged p.1 (propGet oldP p.1) p.2
  let removed := (oldP.filter fun p => (newP.lookup p.1).isNone).map Prod.fst
  if changed ≠ [] ∨ removed ≠ [] then
    some (.update path changed removed)
  else
    none

/-- Python dict assignment `m[k] = v`: overwrite in place if the key is
present (keeping its position), else append. -/
def dictUpd {α : Type} (m : List (String × α)) (k : String) (v : α) :
    List (String × α) :=
  if m.any fun p => p.1 == k then
    m.map fun p => if p.1 == k then (k, v) else p
  else
    m ++ [(k, v)]

/-- The dict comprehension
`\x7bc.get('key'): (i, c) for i, c in enumerate(children) if c.get('key') is not None\x7d`
of `_diff_keyed_children`: children without a key are skipped, every child
(keyed or not) advances the enumeration index, and a duplicate key keeps its
first position in the dict but takes the last `(i, c)` value. -/
def buildByKeyAux (i : Nat) (m : List (String × Nat × Node)) :
    List Node → List (String × Nat × Node)
  | [] => m
  | c :: cs =>
      buildByKeyAux (i + 1)
        (match c.key with
         | some k => dictUpd m k (i, c)
         | none => m) cs

/-- Key → (index, child) map for a children list. -/
def buildByKey (cs : List Node) : List (String × Nat × Node) :=
  buildByKeyAux 0 [] cs

theorem mem_dictUpd {α : Type} {m : List (String × α)} {k : String} {v : α}
    {p : String × α} (h : p ∈ dictUpd m k v) : p ∈ m ∨ p = (k, v) := by
  unfold dictUpd at h
  by_cases hc : m.any fun p => p.1 == k
  · simp [hc] at h
    obtain ⟨a, b, hab, he⟩ := h
    by_cases hak : a = k
    · rw [if_pos hak] at he
      right
      exact he.symm
    · rw [if_neg hak] at he
      left
      exact he ▸ hab
  · simp [hc] at h
    rcases h with h | h
    · left; exact h
    · right; exact h

theorem mem_buildByKeyAux {i : Nat} {m : List (String × Nat × Node)}
    {cs : List Node} {p : String × Nat × Node}
    (h : p ∈ buildByKeyAux i m cs) : p ∈ m ∨ p.2.2 ∈ cs := by
  induction cs generalizing i m with
  | nil => simp [buildByKeyAux] at h; left; exact h
  | cons c rest ih =>
      simp only [buildByKeyAux] at h
      rcases ih h with hm | hrest
      · cases hk : c.key with
        | some k =>
            rw [hk] at hm
            rcases mem_dictUpd hm with hm2 | hm2
            · left; exact hm2
            · right; simp [hm2]
        | none =>
            rw [hk] at hm
            left; exact hm
      · right; simp [hrest]

theorem mem_buildByKey {cs : List Node} {p : String × Nat × Node}
    (h : p ∈ buildByKey cs) : p.2.2 ∈ cs := by
  rcases mem_buildByKeyAux h with hm | hc
  · simp at hm
  · exact hc

theorem lookup_mem {α β : Type} [BEq β] {l : List (β × α)} {k : β} {v : α}
    (h : l.lookup k = some v) : ∃ k2, (k2, v) ∈ l := by
  induction l with
  | nil => simp [List.lookup] at h
  | cons p rest ih =>
      obtain ⟨a, b⟩ := p
      by_cases hk : (k == a) = true
      · refine ⟨a, ?_⟩
        have hb : some b = some v := by simpa [List.lookup, hk] using h
        have : b = v := Option.some.inj hb
        simp [this]
      · have h2 : rest.lookup k = some v := by
          simpa [List.lookup, hk] using h
        obtain ⟨k2, hm⟩ := ih h2
        exact ⟨k2, List.mem_cons_of_mem _ hm⟩

theorem buildByKey_lookup_sizeOf {cs : List Node} {k : String}
    {i : Nat} {c : Node} (h : (buildByKey cs).lookup k = some (i, c)) :
    sizeOf c < sizeOf cs := by
  obtain ⟨k2, hm⟩ := lookup_mem h
  have := mem_buildByKey hm
  exact List.sizeOf_lt_of_mem this

/-- The `REMOVE` loop of `_diff_keyed_children` (lines 442–446): every old
key absent from the new key map yields a `REMOVE` at `path + [key]`. -/
def diffKeyedRemovals (oldC newC : List Node) (path : List PathElem) :
    List Patch :=
  (buildByKey oldC).filterMap fun p =>
    if ((buildByKey newC).lookup p.1).isNone then
      some (.remove (path ++ [.key p.1]) (some p.2.2))
    else none

mutual

/-- `FunctionalDiffer._diff_node` (lines 244–301), minus the transparent
memo table and `old is new` fast path: `REPLACE` on a `type` or `key`
mismatch, otherwise the props patch (if any) followed by the children
patches.  (`_diff_node` appends `children_patches` filtered by truthiness;
patches are non-empty dicts, so the filter keeps everything.) -/
def diffNode : Node → Node → List PathElem → List Patch
  | .mk ot ok op oc, .mk nt nk np nc, path =>
    if ot ≠ nt then [.replace path (.mk ot ok op oc) (.mk nt nk np nc)]
    else if ok ≠ nk then [.replace path (.mk ot ok op oc) (.mk nt nk np nc)]
    else
      (match diffProps op np path with
       | some q => [q]
       | none => []) ++ diffChildren oc nc path
termination_by o n path => (sizeOf o + sizeOf n, 3, 0)
decreasing_by
  apply Prod.Lex.left
  simp [Node.mk.sizeOf_spec]
  omega

/-- `FunctionalDiffer._diff_children` (lines 362–370): keyed diffing
whenever any *new* child has a key, indexed diffing otherwise. -/
def diffChildren (oldC newC : List Node) (path : List PathElem) : List Patch :=
  if newC.any fun c => c.key.isSome then
    diffKeyed oldC newC path
  else
    diffIndexed oldC newC 0 path
termination_by (sizeOf oldC + sizeOf newC, 2, 0)
decreasing_by
  · apply Prod.Lex.right
    apply Prod.Lex.left
    omega
  · apply Prod.Lex.right
    apply Prod.Lex.left
    omega

/-- `FunctionalDiffer._diff_indexed_children` (lines 372–393): pairwise by
position up to `max(len(old), len(new))`; a missing old child is a `CREATE`,
a missing new child a `REMOVE`, both present recurse. -/
def diffIndexed : List Node → List Node → Nat → List PathElem → List Patch
  | [], [], _, _ => []
  | o :: os, [], i, path =>
      .remove (path ++ [.idx i]) (some o) :: diffIndexed os [] (i + 1) path
  | [], n :: ns, i, path =>
      .create (path ++ [.idx i]) n :: diffIndexed [] ns (i + 1) path
  | o :: os, n :: ns, i, path =>
      diffNode o n (path ++ [.idx i]) ++ diffIndexed os ns (i + 1) path
termination_by oldC newC i path => (sizeOf oldC + sizeOf newC, 0, 0)
decreasing_by
  · apply Prod.Lex.left
    simp
    try omega
  · apply Prod.Lex.left
    simp
    try omega
  · apply Prod.Lex.left
    simp
    try omega
  · apply Prod.Lex.left
    simp
    try omega

/-- `FunctionalDiffer._diff_keyed_children` (lines 395–448): the loop over
`new_by_key` followed by the `REMOVE` loop over `old_by_key`.  The
`attach`ed key map carries the membership facts the termination argument
needs; `diffKeyedNew_eq` below restates it over the bare key map. -/
def diffKeyed (oldC newC : List Node) (path : List PathElem) : List Patch :=
  diffKeyedNew oldC newC (buildByKey newC).attach path ++
    diffKeyedRemovals oldC newC path
termination_by (sizeOf oldC + sizeOf newC, 1, 0)
decreasing_by
  apply Prod.Lex.right
  apply Prod.Lex.left
  omega

/-- The `for key, (new_idx, new_child) in new_by_key.items()` loop of
`_diff_keyed_children` (lines 407–439): an existing key recurses into the
child at `path + [key]` and adds a `MOVE` when its index changed; a fresh
key yields a `CREATE`. -/
def diffKeyedNew (oldC newC : List Node)
    (pairs : List {p : String × Nat × Node // p ∈ buildByKey newC})
    (path : List PathElem) : List Patch :=
  match pairs with
  | [] => []
  | ⟨(k, ni, nc), hmem⟩ :: rest =>
      (match hfind : (buildByKey oldC).lookup k with
       | some (oi, oc) =>
           diffNode oc nc (path ++ [.key k]) ++
             (if oi ≠ ni then [.move path k oi ni] else [])
       | none => [.create (path ++ [.key k]) nc]) ++
      diffKeyedNew oldC newC rest path
termination_by (sizeOf oldC + sizeOf newC, 0, pairs.length)
decreasing_by
  · apply Prod.Lex.left
    have h1 : sizeOf oc < sizeOf oldC := buildByKey_lookup_sizeOf hfind
    have h2 : sizeOf nc < sizeOf newC :=
      List.sizeOf_lt_of_mem (mem_buildByKey hmem)
    omega
  · apply Prod.Lex.right
    apply Prod.Lex.right
    simp

end

/-- `FunctionalDiffer.diff` (lines 210–242), minus the transparent
`patch_cache`: an absent new tree is a root `REMOVE` (checked first), an
absent old tree a root `CREATE`, otherwise the node diff at the root path.
Python truthiness of `not new_vdom` is modelled by `Option.none`; the
program never diffs the other falsy value (the empty dict). -/
def diff (oldVdom newVdom : Option Node) : List Patch :=
  match newVdom with
  | none => [.remove [] oldVdom]
  | some newN =>
    match oldVdom with
    | none => [.create [] newN]
    | some oldN => diffNode oldN newN []

/-!
## Differ lemmas
-/

/-- The patches one `new_by_key` entry contributes in
`_diff_keyed_children`: recurse + conditional `MOVE` for a key present in
old, `CREATE` for a fresh key. -/
def diffKeyedBlock (oldC : List Node) (p : String × Nat × Node)
    (path : List PathElem) : List Patch :=
  match (buildByKey oldC).lookup p.1 with
  | some (oi, oc) =>
      diffNode oc p.2.2 (path ++ [.key p.1]) ++
        (if oi ≠ p.2.1 then [.move path p.1 oi p.2.1] else [])
  | none => [.create (path ++ [.key p.1]) p.2.2]

theorem diffKeyedNew_eq (oldC newC : List Node)
    (pairs : List {p : String × Nat × Node // p ∈ buildByKey newC})
    (path : List PathElem) :
    diffKeyedNew oldC newC pairs path =
      (pairs.map fun p => diffKeyedBlock oldC p.val path).join := by
  induction pairs with
  | nil => simp [diffKeyedNew]
  | cons p rest ih =>
      obtain ⟨⟨k, ni, nc⟩, hmem⟩ := p
      rw [diffKeyedNew]
      simp only [List.map_cons, List.join_cons]
      rw [ih]
      congr 1
      cases hfind : (buildByKey oldC).lookup k with
      | some v =>
          obtain ⟨oi, oc⟩ := v
          simp [diffKeyedBlock, hfind]
      | none => simp [diffKeyedBlock, hfind]

theorem diffKeyed_eq (oldC newC : List Node) (path : List PathElem) :
    diffKeyed oldC newC path =
      ((buildByKey newC).map fun p => diffKeyedBlock oldC p path).join ++
        diffKeyedRemovals oldC newC path := by
  rw [diffKeyed, diffKeyedNew_eq]
  congr 2
  exact List.attach_map_val (buildByKey newC) fun p => diffKeyedBlock oldC p path

theorem lookup_mem_self {α : Type} {l : List (String × α)} {k : String}
    {v : α} (h : l.lookup k = some v) : (k, v) ∈ l := by
  induction l with
  | nil => simp [List.lookup] at h
  | cons p rest ih =>
      obtain ⟨a, b⟩ := p
      by_cases hk : (k == a) = true
      · have hb : some b = some v := by simpa [List.lookup, hk] using h
        have hkv : k = a := by simpa using hk
        simp [hkv, Option.some.inj hb]
      · have h2 : rest.lookup k = some v := by
          simpa [List.lookup, hk] using h
        exact List.mem_cons_of_mem _ (ih h2)

theorem lookup_of_mem_nodupKeys {α : Type} {l : List (String × α)}
    {k : String} {v : α} (hnd : (l.map Prod.fst).Nodup) (h : (k, v) ∈ l) :
    l.lookup k = some v := by
  induction l with
  | nil => simp at h
  | cons p rest ih =>
      obtain ⟨a, b⟩ := p
      simp only [List.map_cons, List.nodup_cons] at hnd
      rcases List.mem_cons.mp h with he | hm
      · rw [show a = k from (Prod.ext_iff.mp he).1.symm,
            show b = v from (Prod.ext_iff.mp he).2.symm]
        simp [List.lookup]
      · have hka : k ≠ a := by
          intro hkeq
          apply hnd.1
          exact hkeq ▸ (List.mem_map.mpr ⟨(k, v), hm, rfl⟩)
        have hbeq : (k == a) = false := by simpa using hka
        simp [List.lookup, hbeq, ih hnd.2 hm]

theorem dictUpd_keys_of_mem {α : Type} {m : List (String × α)} {k : String}
    {v : α} (h : k ∈ m.map Prod.fst) :
    (dictUpd m k v).map Prod.fst = m.map Prod.fst := by
  unfold dictUpd
  have hany : (m.any fun p => p.1 == k) = true := by
    simp only [List.any_eq_true]
    obtain ⟨p, hp, hpk⟩ := List.mem_map.mp h
    exact ⟨p, hp, by simp [hpk]⟩
  rw [if_pos hany, List.map_map]
  apply List.map_congr_left
  intro p _
  by_cases hpk : p.1 = k
  · simp [hpk]
  · simp [hpk]

theorem dictUpd_keys_of_not_mem {α : Type} {m : List (String × α)}
    {k : String} {v : α} (h : k ∉ m.map Prod.fst) :
    (dictUpd m k v).map Prod.fst = m.map Prod.fst ++ [k] := by
  unfold dictUpd
  have hany : (m.any fun p => p.1 == k) = false := by
    simp only [List.any_eq_false]
    intro p hp
    simp only [beq_iff_eq]
    intro hpk
    exact h (List.mem_map.mpr ⟨p, hp, hpk⟩)
  rw [if_neg (by simp [hany])]
  simp

theorem dictUpd_keysNodup {α : Type} {m : List (String × α)} {k : String}
    {v : α} (hnd : (m.map Prod.fst).Nodup) :
    ((dictUpd m k v).map Prod.fst).Nodup := by
  by_cases hk : k ∈ m.map Prod.fst
  · rw [dictUpd_keys_of_mem hk]; exact hnd
  · rw [dictUpd_keys_of_not_mem hk]
    rw [List.nodup_append]
    refine ⟨hnd, by simp, ?_⟩
    intro x hx hxk
    simp only [List.mem_singleton] at hxk
    exact hk (hxk ▸ hx)

theorem buildByKeyAux_keysNodup {i : Nat} {m : List (String × Nat × Node)}
    {cs : List Node} (hnd : (m.map Prod.fst).Nodup) :
    ((buildByKeyAux i m cs).map Prod.fst).Nodup := by
  induction cs generalizing i m with
  | nil => simpa [buildByKeyAux] using hnd
  | cons c rest ih =>
      rw [buildByKeyAux]
      cases hk : c.key with
      | some k => exact ih (dictUpd_keysNodup hnd)
      | none => exact ih hnd

theorem buildByKey_keysNodup (cs : List Node) :
    ((buildByKey cs).map Prod.fst).Nodup :=
  buildByKeyAux_keysNodup (by simp)

theorem buildByKey_lookup_self {cs : List Node} {k : String} {i : Nat}
    {c : Node} (h : (k, i, c) ∈ buildByKey cs) :
    (buildByKey cs).lookup k = some (i, c) :=
  lookup_of_mem_nodupKeys (buildByKey_keysNodup cs) h

/-- Keys of a Python dict are unique by construction; this states that
invariant for a modelled props association list. -/
def propsNodup (ps : List (String × Val)) : Bool :=
  decide ((ps.map Prod.fst).Nodup)

mutual

/-- A tree the Python program can actually build: every props dict in it has
unique keys (Python dicts cannot hold duplicates; the association-list model
can, so the invariant is explicit). -/
def nodeWF : Node → Bool
  | .mk _ _ ps cs => propsNodup ps && nodeListWF cs

def nodeListWF : List Node → Bool
  | [] => true
  | c :: cs => nodeWF c && nodeListWF cs

end

theorem nodeListWF_mem {cs : List Node} {c : Node}
    (h : nodeListWF cs = true) (hm : c ∈ cs) : nodeWF c = true := by
  induction cs with
  | nil => simp at hm
  | cons d rest ih =>
      rw [nodeListWF, Bool.and_eq_true] at h
      rcases List.mem_cons.mp hm with he | hm2
      · exact he ▸ h.1
      · exact ih h.2 hm2

theorem propChanged_self (k : String) (v : Val) : propChanged k v v = false := by
  unfold propChanged
  by_cases h1 : k = "text" ∨ k = "value"
  · simp [h1]
  · rw [if_neg h1]
    by_cases h2 : k ∈ eventHandlerProps
    · rw [if_pos h2]
      cases v <;> simp [isCallable, pyIs, pyEq_refl]
    · rw [if_neg h2]
      simp [pyEq_refl]

theorem mem_lookup_isSome {α : Type} {l : List (String × α)} {k : String}
    {v : α} (h : (k, v) ∈ l) : (l.lookup k).isSome = true := by
  induction l with
  | nil => simp at h
  | cons p rest ih =>
      obtain ⟨a, b⟩ := p
      by_cases hk : (k == a) = true
      · simp [List.lookup, hk]
      · rcases List.mem_cons.mp h with he | hm
        · exact absurd (by simpa using (Prod.ext_iff.mp he).1) (by simpa using hk)
        · simpa [List.lookup, hk] using ih hm

theorem diffProps_self {ps : List (String × Val)}
    (hnd : propsNodup ps = true) (path : List PathElem) :
    diffProps ps ps path = none := by
  have hnd2 : (ps.map Prod.fst).Nodup := by simpa [propsNodup] using hnd
  have hchanged :
      (ps.filter fun p => propChanged p.1 (propGet ps p.1) p.2) = [] := by
    apply List.filter_eq_nil.mpr
    intro p hp
    obtain ⟨k, v⟩ := p
    have : propGet ps k = v := by
      simp [propGet, lookup_of_mem_nodupKeys hnd2 hp]
    simp [this, propChanged_self]
  have hremoved :
      (ps.filter fun p => (ps.lookup p.1).isNone) = [] := by
    apply List.filter_eq_nil.mpr
    intro p hp
    obtain ⟨k, v⟩ := p
    have hs := mem_lookup_isSome hp
    cases hl : ps.lookup k with
    | none => rw [hl] at hs; simp at hs
    | some w => simp [hl]
  rw [diffProps]
  simp [hchanged, hremoved]

theorem diffKeyedRemovals_self (cs : List Node) (path : List PathElem) :
    diffKeyedRemovals cs cs path = [] := by
  rw [diffKeyedRemovals]
  apply List.filterMap_eq_nil.mpr
  intro p hp
  obtain ⟨k, i, c⟩ := p
  rw [if_neg]
  simp [buildByKey_lookup_self hp]

theorem diffIndexed_self_of (cs : List Node) (i : Nat) (path : List PathElem)
    (h : ∀ c ∈ cs, ∀ p2, diffNode c c p2 = []) :
    diffIndexed cs cs i path = [] := by
  induction cs generalizing i with
  | nil => rw [diffIndexed]
  | cons c rest ih =>
      rw [diffIndexed]
      rw [h c (by simp) _]
      rw [ih (i + 1) fun d hd => h d (List.mem_cons_of_mem _ hd)]
      simp

theorem diffKeyed_self_of (cs : List Node) (path : List PathElem)
    (h : ∀ c ∈ cs, ∀ p2, diffNode c c p2 = []) :
    diffKeyed cs cs path = [] := by
  rw [diffKeyed_eq, diffKeyedRemovals_self]
  rw [List.append_nil]
  apply List.flatten_eq_nil_iff.mpr
  intro block hb
  obtain ⟨p, hp, hpe⟩ := List.mem_map.mp hb
  obtain ⟨k, i, c⟩ := p
  rw [← hpe]
  rw [diffKeyedBlock]
  simp only [buildByKey_lookup_self hp]
  rw [h c (mem_buildByKey hp) _]
  simp

theorem diffChildren_self_of (cs : List Node) (path : List PathElem)
    (h : ∀ c ∈ cs, ∀ p2, diffNode c c p2 = []) :
    diffChildren cs cs path = [] := by
  rw [diffChildren]
  by_cases hk : (cs.any fun c => c.key.isSome) = true
  · rw [if_pos hk]
    exact diffKeyed_self_of cs path h
  · rw [if_neg hk]
    exact diffIndexed_self_of cs 0 path h

/-- Diffing a (well-formed) tree against itself produces no patches; this
also shows the differ's `old is new` fast path is transparent. -/
theorem diffNode_self : ∀ (n : Node), nodeWF n = true →
    ∀ path, diffNode n n path = []
  | .mk t k ps cs, hwf, path => by
      rw [nodeWF, Bool.and_eq_true] at hwf
      have hIH : ∀ c ∈ cs, ∀ p2, diffNode c c p2 = [] := fun c hc p2 =>
        diffNode_self c (nodeListWF_mem hwf.2 hc) p2
      rw [diffNode]
      simp only [ne_eq, not_true_eq_false, if_false, diffProps_self hwf.1]
      rw [diffChildren_self_of cs path hIH]
      simp
termination_by n => sizeOf n
decreasing_by
  have h1 := List.sizeOf_lt_of_mem hc
  simp [Node.mk.sizeOf_spec]
  omega

/-- `diffChildren` of two empty children lists is empty. -/
theorem diffChildren_nil (p : List PathElem) : diffChildren [] [] p = [] := by
  rw [diffChildren]
  simp
  rw [diffIndexed]

/-- Shape of a patch emitted by a diff rooted at `p`: its path extends `p`,
and `CREATE`/`REMOVE` patches always sit strictly below `p` (the node diff
itself only emits `REPLACE`/`UPDATE`/`MOVE` at its own path). -/
def PatchFrom (p : List PathElem) (q : Patch) : Prop :=
  p <+: q.path ∧
    (∀ pq nq, q = Patch.create pq nq → p.length < pq.length) ∧
    (∀ pq oq, q = Patch.remove pq oq → p.length < pq.length)

theorem patchFrom_extend {p : List PathElem} {e : PathElem} {q : Patch}
    (h : PatchFrom (p ++ [e]) q) : PatchFrom p q := by
  obtain ⟨hpre, hcr, hrm⟩ := h
  refine ⟨?_, ?_, ?_⟩
  · exact List.IsPrefix.trans ⟨[e], rfl⟩ hpre
  · intro pq nq he
    have := hcr pq nq he
    simp at this
    omega
  · intro pq oq he
    have := hrm pq oq he
    simp at this
    omega

theorem patchFrom_at {p : List PathElem} {q : Patch}
    (hpath : q.path = p)
    (hshape : (∀ pq nq, q = Patch.create pq nq → False) ∧
              (∀ pq oq, q = Patch.remove pq oq → False)) : PatchFrom p q :=
  ⟨hpath ▸ List.prefix_refl _,
   fun pq nq he => absurd he (fun he2 => hshape.1 pq nq he2),
   fun pq oq he => absurd he (fun he2 => hshape.2 pq oq he2)⟩

theorem patchFrom_child {p : List PathElem} {e : PathElem} {q : Patch}
    (hpath : q.path = p ++ [e]) : PatchFrom p q := by
  refine ⟨hpath ▸ ⟨[e], rfl⟩, ?_, ?_⟩
  · intro pq nq he
    have : pq = p ++ [e] := by rw [← hpath, he, Patch.path]
    simp [this]
  · intro pq oq he
    have : pq = p ++ [e] := by rw [← hpath, he, Patch.path]
    simp [this]

theorem diffIndexed_patchFrom_of :
    ∀ (oldC newC : List Node) (i : Nat) (p : List PathElem),
    (∀ o n, o ∈ oldC → n ∈ newC → ∀ p2 q, q ∈ diffNode o n p2 → PatchFrom p2 q) →
    ∀ q ∈ diffIndexed oldC newC i p, PatchFrom p q
  | [], [], i, p => fun _ q hq => by
      rw [diffIndexed] at hq; simp at hq
  | [], n :: ns, i, p => fun hIH q hq => by
      rw [diffIndexed] at hq
      rcases List.mem_cons.mp hq with he | hm
      · exact he ▸ patchFrom_child rfl
      · exact diffIndexed_patchFrom_of [] ns (i + 1) p
          (fun o2 n2 ho2 _ => by simp at ho2) q hm
  | o :: os, [], i, p => fun hIH q hq => by
      rw [diffIndexed] at hq
      rcases List.mem_cons.mp hq with he | hm
      · exact he ▸ patchFrom_child rfl
      · exact diffIndexed_patchFrom_of os [] (i + 1) p
          (fun o2 n2 _ hn2 => by simp at hn2) q hm
  | o :: os, n :: ns, i, p => fun hIH q hq => by
      rw [diffIndexed] at hq
      rcases List.mem_append.mp hq with hm | hm
      · exact patchFrom_extend
          (hIH o n (by simp) (by simp) (p ++ [.idx i]) q hm)
      · exact diffIndexed_patchFrom_of os ns (i + 1) p
          (fun o2 n2 ho2 hn2 =>
            hIH o2 n2 (List.mem_cons_of_mem _ ho2)
              (List.mem_cons_of_mem _ hn2)) q hm
termination_by oldC newC => oldC.length + newC.length
decreasing_by
  · simp
  · simp
  · simp
    omega

theorem mem_diffKeyedRemovals {oldC newC : List Node} {p : List PathElem}
    {q : Patch} (hq : q ∈ diffKeyedRemovals oldC newC p) :
    ∃ k i c, (k, i, c) ∈ buildByKey oldC ∧
      ((buildByKey newC).lookup k).isNone = true ∧
      q = .remove (p ++ [.key k]) (some c) := by
  rw [diffKeyedRemovals] at hq
  obtain ⟨pr, hpr, he⟩ := List.mem_filterMap.mp hq
  obtain ⟨k, i, c⟩ := pr
  by_cases hn : ((buildByKey newC).lookup k).isNone = true
  · rw [if_pos hn] at he
    exact ⟨k, i, c, hpr, hn, (Option.some.inj he).symm⟩
  · rw [if_neg hn] at he
    simp at he

theorem diffKeyed_patchFrom_of :
    ∀ (oldC newC : List Node) (p : List PathElem),
    (∀ o n, o ∈ oldC → n ∈ newC → ∀ p2 q, q ∈ diffNode o n p2 → PatchFrom p2 q) →
    ∀ q ∈ diffKeyed oldC newC p, PatchFrom p q := by
  intro oldC newC p hIH q hq
  rw [diffKeyed_eq] at hq
  rcases List.mem_append.mp hq with hm | hm
  · obtain ⟨block, hb, hqb⟩ := List.mem_flatten.mp hm
    obtain ⟨pr, hpr, hbe⟩ := List.mem_map.mp hb
    obtain ⟨k, ni, nc⟩ := pr
    rw [← hbe, diffKeyedBlock] at hqb
    cases hfind : (buildByKey oldC).lookup k with
    | some v =>
        obtain ⟨oi, oc⟩ := v
        rw [hfind] at hqb
        simp only at hqb
        rcases List.mem_append.mp hqb with hm2 | hm2
        · have hoc : oc ∈ oldC := by
            have := lookup_mem_self hfind
            exact mem_buildByKey this
          have hnc : nc ∈ newC := mem_buildByKey hpr
          exact patchFrom_extend (hIH oc nc hoc hnc (p ++ [.key k]) q hm2)
        · by_cases hne : oi ≠ ni
          · rw [if_pos hne] at hm2
            simp at hm2
            subst hm2
            exact patchFrom_at rfl ⟨fun _ _ h => by simp at h,
                                    fun _ _ h => by simp at h⟩
          · rw [if_neg hne] at hm2
            simp at hm2
    | none =>
        rw [hfind] at hqb
        simp at hqb
        subst hqb
        exact patchFrom_child rfl
  · obtain ⟨k, i, c, _, _, he⟩ := mem_diffKeyedRemovals hm
    exact he ▸ patchFrom_child rfl

theorem diffNode_patchFrom :
    ∀ (o n : Node) (p : List PathElem) (q : Patch),
    q ∈ diffNode o n p → PatchFrom p q
  | .mk ot ok op oc, .mk nt nk np nc, p, q, hq => by
      rw [diffNode] at hq
      by_cases ht : ot ≠ nt
      · rw [if_pos ht] at hq
        simp at hq
        subst hq
        exact patchFrom_at rfl ⟨fun _ _ h => by simp at h,
                                fun _ _ h => by simp at h⟩
      · rw [if_neg ht] at hq
        by_cases hk : ok ≠ nk
        · rw [if_pos hk] at hq
          simp at hq
          subst hq
          exact patchFrom_at rfl ⟨fun _ _ h => by simp at h,
                                  fun _ _ h => by simp at h⟩
        · rw [if_neg hk] at hq
          have hIH : ∀ o2 n2, o2 ∈ oc → n2 ∈ nc →
              ∀ p2 q2, q2 ∈ diffNode o2 n2 p2 → PatchFrom p2 q2 :=
            fun o2 n2 ho2 hn2 p2 q2 hq2 => diffNode_patchFrom o2 n2 p2 q2 hq2
          rcases List.mem_append.mp hq with hm | hm
          · cases hdp : diffProps op np p with
            | some u =>
                rw [hdp] at hm
                simp at hm
                subst hm
                rw [diffProps] at hdp
                split at hdp
                · injection hdp with hu
                  subst hu
                  exact patchFrom_at rfl ⟨fun _ _ h => by simp at h,
                                          fun _ _ h => by simp at h⟩
                · simp at hdp
            | none =>
                rw [hdp] at hm
                simp at hm
          · rw [diffChildren] at hm
            by_cases hkk : (nc.any fun c => c.key.isSome) = true
            · rw [if_pos hkk] at hm
              exact diffKeyed_patchFrom_of oc nc p hIH q hm
            · rw [if_neg hkk] at hm
              exact diffIndexed_patchFrom_of oc nc 0 p hIH q hm
termination_by o n => sizeOf o + sizeOf n
decreasing_by
  have h1 := List.sizeOf_lt_of_mem ho2
  have h2 := List.sizeOf_lt_of_mem hn2
  simp [Node.mk.sizeOf_spec]
  omega

theorem not_mem_diffNode_short {o n : Node} {p : List PathElem}
    {e : PathElem} {q : Patch} (hq : q ∈ diffNode o n (p ++ [e]))
    (hpath : q.path = p) : False := by
  have hpre := (diffNode_patchFrom o n _ q hq).1
  have hlen := List.IsPrefix.length_le hpre
  rw [hpath] at hlen
  simp at hlen

/-- In keyed children diffing, a `MOVE` at the parent path is emitted for
key `k` exactly when `k` is in both key maps with different indices. -/
theorem move_mem_diffKeyed {oldC newC : List Node} {p : List PathElem}
    {k : String} {oi ni : Nat} :
    Patch.move p k oi ni ∈ diffKeyed oldC newC p ↔
      ∃ oc nc, (buildByKey oldC).lookup k = some (oi, oc) ∧
        (buildByKey newC).lookup k = some (ni, nc) ∧ oi ≠ ni := by
  constructor
  · intro hq
    rw [diffKeyed_eq] at hq
    rcases List.mem_append.mp hq with hm | hm
    · obtain ⟨block, hb, hqb⟩ := List.mem_flatten.mp hm
      obtain ⟨pr, hpr, hbe⟩ := List.mem_map.mp hb
      obtain ⟨k2, ni2, nc2⟩ := pr
      rw [← hbe, diffKeyedBlock] at hqb
      cases hfind : (buildByKey oldC).lookup k2 with
      | some v =>
          obtain ⟨oi2, oc2⟩ := v
          rw [hfind] at hqb
          simp only at hqb
          rcases List.mem_append.mp hqb with hm2 | hm2
          · exact absurd hm2 (fun hm3 => not_mem_diffNode_short hm3 rfl)
          · by_cases hne : oi2 ≠ ni2
            · rw [if_pos hne] at hm2
              simp only [List.mem_singleton, Patch.move.injEq] at hm2
              obtain ⟨-, hk2, hoi2, hni2⟩ := hm2
              subst hk2; subst hoi2; subst hni2
              exact ⟨oc2, nc2, hfind, buildByKey_lookup_self hpr, hne⟩
            · rw [if_neg hne] at hm2
              simp at hm2
      | none =>
          rw [hfind] at hqb
          simp at hqb
    · obtain ⟨k2, i2, c2, _, _, he⟩ := mem_diffKeyedRemovals hm
      simp at he
  · rintro ⟨oc, nc, hfo, hfn, hne⟩
    rw [diffKeyed_eq]
    apply List.mem_append.mpr
    left
    apply List.mem_flatten.mpr
    refine ⟨diffKeyedBlock oldC (k, ni, nc) p,
      List.mem_map.mpr ⟨(k, ni, nc), lookup_mem_self hfn, rfl⟩, ?_⟩
    rw [diffKeyedBlock]
    simp only [hfo]
    apply List.mem_append.mpr
    right
    rw [if_pos hne]
    simp

/-- In keyed children diffing, a `CREATE` at `path + [key]` is emitted for
key `k` exactly when `k` is a new key absent from the old key map. -/
theorem create_mem_diffKeyed {oldC newC : List Node} {p : List PathElem}
    {k : String} {nc : Node} :
    Patch.create (p ++ [.key k]) nc ∈ diffKeyed oldC newC p ↔
      ∃ ni, (buildByKey newC).lookup k = some (ni, nc) ∧
        (buildByKey oldC).lookup k = none := by
  constructor
  · intro hq
    rw [diffKeyed_eq] at hq
    rcases List.mem_append.mp hq with hm | hm
    · obtain ⟨block, hb, hqb⟩ := List.mem_flatten.mp hm
      obtain ⟨pr, hpr, hbe⟩ := List.mem_map.mp hb
      obtain ⟨k2, ni2, nc2⟩ := pr
      rw [← hbe, diffKeyedBlock] at hqb
      cases hfind : (buildByKey oldC).lookup k2 with
      | some v =>
          obtain ⟨oi2, oc2⟩ := v
          rw [hfind] at hqb
          simp only at hqb
          rcases List.mem_append.mp hqb with hm2 | hm2
          · have h1 := (diffNode_patchFrom _ _ _ _ hm2).2.1 _ _ rfl
            simp at h1
          · by_cases hne : oi2 ≠ ni2
            · rw [if_pos hne] at hm2
              simp at hm2
            · rw [if_neg hne] at hm2
              simp at hm2
      | none =>
          rw [hfind] at hqb
          simp only [List.mem_singleton, Patch.create.injEq,
            List.append_cancel_left_eq, List.cons.injEq, PathElem.key.injEq,
            and_true] at hqb
          obtain ⟨hk2, hnc2⟩ := hqb
          subst hk2; subst hnc2
          exact ⟨ni2, buildByKey_lookup_self hpr, hfind⟩
    · obtain ⟨k2, i2, c2, _, _, he⟩ := mem_diffKeyedRemovals hm
      simp at he
  · rintro ⟨ni, hfn, hfo⟩
    rw [diffKeyed_eq]
    apply List.mem_append.mpr
    left
    apply List.mem_flatten.mpr
    refine ⟨diffKeyedBlock oldC (k, ni, nc) p,
      List.mem_map.mpr ⟨(k, ni, nc), lookup_mem_self hfn, rfl⟩, ?_⟩
    rw [diffKeyedBlock]
    simp only [hfo]
    simp

/-- In keyed children diffing, a `REMOVE` at `path + [key]` is emitted for
key `k` exactly when `k` is an old key absent from the new key map. -/
theorem remove_mem_diffKeyed {oldC newC : List Node} {p : List PathElem}
    {k : String} {oc : Node} :
    Patch.remove (p ++ [.key k]) (some oc) ∈ diffKeyed oldC newC p ↔
      ∃ oi, (buildByKey oldC).lookup k = some (oi, oc) ∧
        (buildByKey newC).lookup k = none := by
  constructor
  · intro hq
    rw [diffKeyed_eq] at hq
    rcases List.mem_append.mp hq with hm | hm
    · obtain ⟨block, hb, hqb⟩ := List.mem_flatten.mp hm
      obtain ⟨pr, hpr, hbe⟩ := List.mem_map.mp hb
      obtain ⟨k2, ni2, nc2⟩ := pr
      rw [← hbe, diffKeyedBlock] at hqb
      cases hfind : (buildByKey oldC).lookup k2 with
      | some v =>
          obtain ⟨oi2, oc2⟩ := v
          rw [hfind] at hqb
          simp only at hqb
          rcases List.mem_append.mp hqb with hm2 | hm2
          · have h1 := (diffNode_patchFrom _ _ _ _ hm2).2.2 _ _ rfl
            simp at h1
          · by_cases hne : oi2 ≠ ni2
            · rw [if_pos hne] at hm2
              simp at hm2
            · rw [if_neg hne] at hm2
              simp at hm2
      | none =>
          rw [hfind] at hqb
          simp at hqb
    · obtain ⟨k2, i2, c2, hm2, hnone, he⟩ := mem_diffKeyedRemovals hm
      simp only [Patch.remove.injEq, List.append_cancel_left_eq,
        List.cons.injEq, PathElem.key.injEq, and_true,
        Option.some.injEq] at he
      obtain ⟨hk2, hoc⟩ := he
      subst hk2; subst hoc
      refine ⟨i2, buildByKey_lookup_self hm2, ?_⟩
      simpa using hnone
  · rintro ⟨oi, hfo, hfn⟩
    rw [diffKeyed_eq]
    apply List.mem_append.mpr
    right
    rw [diffKeyedRemovals]
    apply List.mem_filterMap.mpr
    refine ⟨(k, oi, oc), lookup_mem_self hfo, ?_⟩
    rw [if_pos (by simp [hfn])]

/-- In keyed children diffing, a key present in both maps has its child
recursively diffed at `path + [key]`; all resulting patches are included. -/
theorem recurse_sub_diffKeyed {oldC newC : List Node} {p : List PathElem}
    {k : String} {oi ni : Nat} {oc nc : Node}
    (hfo : (buildByKey oldC).lookup k = some (oi, oc))
    (hfn : (buildByKey newC).lookup k = some (ni, nc)) :
    ∀ q ∈ diffNode oc nc (p ++ [.key k]), q ∈ diffKeyed oldC newC p := by
  intro q hq
  rw [diffKeyed_eq]
  apply List.mem_append.mpr
  left
  apply List.mem_flatten.mpr
  refine ⟨diffKeyedBlock oldC (k, ni, nc) p,
    List.mem_map.mpr ⟨(k, ni, nc), lookup_mem_self hfn, rfl⟩, ?_⟩
  rw [diffKeyedBlock]
  simp only [hfo]
  exact List.mem_append.mpr (Or.inl hq)

/-- Reordering a fully keyed, content-unchanged children list `[a, b, c]`
into `[c, a, b]` yields exactly three `MOVE` patches and nothing else. -/
theorem diffChildren_reorder (a b c : Node) (p : List PathElem)
    (ka kb kc : String)
    (hka : a.key = some ka) (hkb : b.key = some kb) (hkc : c.key = some kc)
    (hab : ka ≠ kb) (hac : ka ≠ kc) (hbc : kb ≠ kc)
    (hwa : nodeWF a = true) (hwb : nodeWF b = true)
    (hwc : nodeWF c = true) :
    diffChildren [a, b, c] [c, a, b] p =
      [.move p kc 2 0, .move p ka 0 1, .move p kb 1 2] := by
  have hanykey : (([c, a, b].any fun x => x.key.isSome)) = true := by
    simp [hkc]
  have hold : buildByKey [a, b, c] =
      [(ka, 0, a), (kb, 1, b), (kc, 2, c)] := by
    simp [buildByKey, buildByKeyAux, dictUpd, hka, hkb, hkc, hab, hac, hbc,
      Ne.symm hab, Ne.symm hac, Ne.symm hbc]
  have hnew : buildByKey [c, a, b] =
      [(kc, 0, c), (ka, 1, a), (kb, 2, b)] := by
    simp [buildByKey, buildByKeyAux, dictUpd, hka, hkb, hkc, hab, hac, hbc,
      Ne.symm hab, Ne.symm hac, Ne.symm hbc]
  have e1 : (ka == kb) = false := by simp [hab]
  have e2 : (ka == kc) = false := by simp [hac]
  have e3 : (kb == kc) = false := by simp [hbc]
  have e4 : (kb == ka) = false := by simp [Ne.symm hab]
  have e5 : (kc == ka) = false := by simp [Ne.symm hac]
  have e6 : (kc == kb) = false := by simp [Ne.symm hbc]
  rw [diffChildren, if_pos hanykey, diffKeyed_eq, hnew]
  simp [diffKeyedBlock, diffKeyedRemovals, hold, hnew, List.lookup,
    e1, e2, e3, e4, e5, e6,
    diffNode_self a hwa, diffNode_self b hwb, diffNode_self c hwc]

theorem mem_buildByKeyAux_key {i : Nat} {m : List (String × Nat × Node)}
    {cs : List Node} {p : String × Nat × Node}
    (h : p ∈ buildByKeyAux i m cs) : p ∈ m ∨ p.2.2.key = some p.1 := by
  induction cs generalizing i m with
  | nil => simp [buildByKeyAux] at h; left; exact h
  | cons c rest ih =>
      simp only [buildByKeyAux] at h
      rcases ih h with hm | hkey
      · cases hk : c.key with
        | some k =>
            rw [hk] at hm
            rcases mem_dictUpd hm with hm2 | hm2
            · left; exact hm2
            · right; rw [hm2]; exact hk
        | none =>
            rw [hk] at hm
            left; exact hm
      · right; exact hkey

/-- Only keyed children enter the key maps of `_diff_keyed_children`, and
each enters under its own key. -/
theorem mem_buildByKey_key {cs : List Node} {p : String × Nat × Node}
    (h : p ∈ buildByKey cs) : p.2.2.key = some p.1 := by
  rcases mem_buildByKeyAux_key h with hm | hk
  · simp at hm
  · exact hk

theorem buildByKeyAux_unkeyed_congr {u u2 : Node}
    (hu : u.key = none) (hu2 : u2.key = none) :
    ∀ (xs ys : List Node) (i : Nat) (m : List (String × Nat × Node)),
    buildByKeyAux i m (xs ++ u :: ys) = buildByKeyAux i m (xs ++ u2 :: ys)
  | [], ys, i, m => by
      simp only [List.nil_append, buildByKeyAux, hu, hu2]
  | x :: xs, ys, i, m => by
      simp only [List.cons_append, buildByKeyAux]
      exact buildByKeyAux_unkeyed_congr hu hu2 xs ys (i + 1) _

theorem buildByKey_unkeyed_congr {u u2 : Node} (xs ys : List Node)
    (hu : u.key = none) (hu2 : u2.key = none) :
    buildByKey (xs ++ u :: ys) = buildByKey (xs ++ u2 :: ys) :=
  buildByKeyAux_unkeyed_congr hu hu2 xs ys 0 []

/-- Keyed diffing depends on the children lists only through their key
maps. -/
theorem diffKeyed_congr {oldC oldC2 newC newC2 : List Node}
    {p : List PathElem} (ho : buildByKey oldC = buildByKey oldC2)
    (hn : buildByKey newC = buildByKey newC2) :
    diffKeyed oldC newC p = diffKeyed oldC2 newC2 p := by
  rw [diffKeyed_eq, diffKeyed_eq, diffKeyedRemovals, diffKeyedRemovals,
    ho, hn]
  congr 1
  apply congrArg
  apply List.map_congr_left
  intro pr _
  rw [diffKeyedBlock, diffKeyedBlock, ho]

/-- In a keyed diff, replacing an unkeyed child (on either side) by any
other unkeyed child leaves the patch list unchanged: unkeyed children are
invisible to keyed reconciliation. -/
theorem diffChildren_unkeyed_invisible (xs ys zs ws : List Node)
    (u u2 v v2 : Node) (p : List PathElem)
    (hu : u.key = none) (hu2 : u2.key = none)
    (hv : v.key = none) (hv2 : v2.key = none)
    (hsome : ((zs ++ ws).any fun c => c.key.isSome) = true) :
    diffChildren (xs ++ u :: ys) (zs ++ v :: ws) p =
      diffChildren (xs ++ u2 :: ys) (zs ++ v2 :: ws) p := by
  have hany1 : ((zs ++ v :: ws).any fun c => c.key.isSome) = true := by
    simp only [List.any_append, List.any_cons, hv, Option.isSome_none] at *
    simpa using hsome
  have hany2 : ((zs ++ v2 :: ws).any fun c => c.key.isSome) = true := by
    simp only [List.any_append, List.any_cons, hv2, Option.isSome_none] at *
    simpa using hsome
  rw [diffChildren, if_pos hany1, diffChildren, if_pos hany2]
  exact diffKeyed_congr (buildByKey_unkeyed_congr xs ys hu hu2)
    (buildByKey_unkeyed_congr zs ws hv hv2)

/-!
## Patch application at tree level

Modelled from the spec.  The source's `FunctionalPatcher.apply_patches`
(lines 2245–2266) applies patches to live tkinter widgets through a
`widget_map`, which has no tree-level shallow embedding; the spec's
round-trip property (§8) speaks of applying the patches to a copy of the
tree, so the applier below follows the spec's words: patches are applied in
the source's five-category order (`REMOVE` → `REORDER`/`MOVE` → `CREATE` →
`UPDATE` → `REPLACE`), a `path` locates its target by key selector first and
positional index otherwise (§6), `UPDATE` merges `changed` and deletes
`removed` props, and `REPLACE`/`CREATE`/`REMOVE` swap, insert or delete the
addressed subtree. -/

/-- Modelled from the spec: apply an `UPDATE` patch's prop edits
(`changed` assignments then `removed` deletions) to a props dict. -/
def updateProps (ps : List (String × Val)) (changed : List (String × Val))
    (removed : List String) : List (String × Val) :=
  (changed.foldl (fun acc kv => dictUpd acc kv.1 kv.2) ps).filter
    fun pr => !(removed.contains pr.1)

/-- Modelled from the spec: reinsert the child keyed `k` at index `ti`. -/
def moveChild (cs : List Node) (k : String) (ti : Nat) : List Node :=
  match cs.find? fun c => c.key == some k with
  | some c => (cs.filter fun c2 => !(c2.key == some k)).insertIdx ti c
  | none => cs

/-- Modelled from the spec: edit the child a selector addresses.  `go none`
handles an absent target (creation appends); `go (some c) = none` deletes
the child. -/
def editChildren (cs : List Node) (e : PathElem)
    (go : Option Node → Option Node) : List Node :=
  match e with
  | .key k =>
      if cs.any fun c2 => c2.key == some k then
        cs.foldr (fun c2 acc =>
          if c2.key == some k then
            match go (some c2) with
            | some c3 => c3 :: acc
            | none => acc
          else c2 :: acc) []
      else
        match go none with
        | some c3 => cs ++ [c3]
        | none => cs
  | .idx i =>
      if h : i < cs.length then
        cs.take i ++
          (match go (some (cs.get ⟨i, h⟩)) with
           | some c3 => [c3]
           | none => []) ++ cs.drop (i + 1)
      else
        match go none with
        | some c3 => cs ++ [c3]
        | none => cs

/-- Modelled from the spec: navigate `p` down the tree and edit the
addressed node. -/
def editAt (t : Option Node) (p : List PathElem)
    (f : Option Node → Option Node) : Option Node :=
  match p with
  | [] => f t
  | e :: rest =>
      match t with
      | none => none
      | some (.mk ty k ps cs) =>
          some (.mk ty k ps (editChildren cs e fun t2 => editAt t2 rest f))

/-- Modelled from the spec: apply one patch to a tree. -/
def applyPatchSpec (t : Option Node) (q : Patch) : Option Node :=
  match q with
  | .remove p _ => editAt t p fun _ => none
  | .move p k _ ti =>
      editAt t p fun t2 =>
        match t2 with
        | some (.mk ty kk ps cs) => some (.mk ty kk ps (moveChild cs k ti))
        | none => none
  | .create p n => editAt t p fun _ => some n
  | .update p changed removed =>
      editAt t p fun t2 =>
        match t2 with
        | some (.mk ty kk ps cs) =>
            some (.mk ty kk (updateProps ps changed removed) cs)
        | none => none
  | .replace p _ n => editAt t p fun _ => some n

/-- The category index of the fixed application order
(`REMOVE` → `MOVE` → `CREATE` → `UPDATE` → `REPLACE`), as
`FunctionalPatcher.apply_patches` groups patches. -/
def patchCategory : Patch → Nat
  | .remove _ _ => 0
  | .move _ _ _ _ => 1
  | .create _ _ => 2
  | .update _ _ _ => 3
  | .replace _ _ _ => 4

/-- Modelled from the spec: apply a patch list in the five-category order. -/
def applyPatchesSpec (patches : List Patch) (t : Option Node) : Option Node :=
  let applyGroup := fun (acc : Option Node) (cat : Nat) =>
    (patches.filter fun q => patchCategory q == cat).foldl applyPatchSpec acc
  applyGroup (applyGroup (applyGroup (applyGroup (applyGroup t 0) 1) 2) 3) 4

/-!
## Association-list bookkeeping for the round-trip proof
-/

theorem lookup_eq_none_of_not_mem_keys {α : Type} {m : List (String × α)}
    {kk : String} (h : kk ∉ m.map Prod.fst) : m.lookup kk = none := by
  induction m with
  | nil => rfl
  | cons p rest ih =>
      obtain ⟨a, b⟩ := p
      simp only [List.map_cons, List.mem_cons] at h
      push_neg at h
      have hbeq : (kk == a) = false := by simpa using h.1
      simpa [List.lookup, hbeq] using ih h.2

theorem lookup_map_upd_self {α : Type} {m : List (String × α)} {k : String}
    {v : α} (h : k ∈ m.map Prod.fst) :
    ((m.map fun p => if p.1 == k then (k, v) else p).lookup k) = some v := by
  induction m with
  | nil => simp at h
  | cons p rest ih =>
      obtain ⟨a, b⟩ := p
      simp only [List.map_cons]
      by_cases hak : (a == k) = true
      · rw [if_pos hak]
        simp [List.lookup]
      · rw [if_neg hak]
        have hne : a ≠ k := by simpa using hak
        have hbeq2 : (k == a) = false := by
          simpa using fun he => hne he.symm
        simp only [List.map_cons, List.mem_cons] at h
        rcases h with h | h
        · exact absurd h.symm hne
        · simpa [List.lookup, hbeq2] using ih h

theorem lookup_map_upd_ne {α : Type} {m : List (String × α)} {k kk : String}
    {v : α} (hne : kk ≠ k) :
    ((m.map fun p => if p.1 == k then (k, v) else p).lookup kk) =
      m.lookup kk := by
  induction m with
  | nil => rfl
  | cons p rest ih =>
      obtain ⟨a, b⟩ := p
      simp only [List.map_cons]
      by_cases hak : (a == k) = true
      · rw [if_pos hak]
        have hae : a = k := by simpa using hak
        have h1 : (kk == k) = false := by simpa using hne
        have h2 : (kk == a) = false := by simpa using hae ▸ hne
        simpa [List.lookup, h1, h2] using ih
      · rw [if_neg hak]
        by_cases hka : (kk == a) = true
        · simp [List.lookup, hka]
        · have hka2 : (kk == a) = false := by simpa using hka
          simpa [List.lookup, hka2] using ih

theorem lookup_append_self {α : Type} {m : List (String × α)} {k : String}
    {v : α} (h : k ∉ m.map Prod.fst) :
    ((m ++ [(k, v)]).lookup k) = some v := by
  induction m with
  | nil => simp [List.lookup]
  | cons p rest ih =>
      obtain ⟨a, b⟩ := p
      simp only [List.map_cons, List.mem_cons] at h
      push_neg at h
      have hbeq : (k == a) = false := by simpa using h.1
      simpa [List.lookup, hbeq] using ih h.2

theorem lookup_append_single_ne {α : Type} {m : List (String × α)}
    {k kk : String} {v : α} (hne : kk ≠ k) :
    ((m ++ [(k, v)]).lookup kk) = m.lookup kk := by
  have hbeqn : (kk == k) = false := by simpa using hne
  induction m with
  | nil => simp [List.lookup, hbeqn]
  | cons p rest ih =>
      obtain ⟨a, b⟩ := p
      by_cases hka : (kk == a) = true
      · simp [List.lookup, hka]
      · have hka2 : (kk == a) = false := by simpa using hka
        simpa [List.lookup, hka2] using ih

theorem dictUpd_lookup_self {α : Type} (m : List (String × α)) (k : String)
    (v : α) : (dictUpd m k v).lookup k = some v := by
  unfold dictUpd
  by_cases hc : (m.any fun p => p.1 == k) = true
  · rw [if_pos hc]
    apply lookup_map_upd_self
    simp only [List.any_eq_true] at hc
    obtain ⟨p, hp, hpk⟩ := hc
    exact List.mem_map.mpr ⟨p, hp, by simpa using hpk⟩
  · rw [if_neg hc]
    apply lookup_append_self
    intro hmem
    apply hc
    simp only [List.any_eq_true]
    obtain ⟨p, hp, hpk⟩ := List.mem_map.mp hmem
    exact ⟨p, hp, by simpa using hpk⟩

theorem dictUpd_lookup_ne {α : Type} (m : List (String × α)) (k kk : String)
    (v : α) (hne : kk ≠ k) : (dictUpd m k v).lookup kk = m.lookup kk := by
  unfold dictUpd
  by_cases hc : (m.any fun p => p.1 == k) = true
  · rw [if_pos hc]
    exact lookup_map_upd_ne hne
  · rw [if_neg hc]
    exact lookup_append_single_ne hne

theorem foldl_dictUpd_lookup {α : Type} :
    ∀ (changed : List (String × α)) (ps : List (String × α)) (kk : String),
    ((changed.map Prod.fst).Nodup) →
    ((changed.foldl (fun acc kv => dictUpd acc kv.1 kv.2) ps).lookup kk) =
      (changed.lookup kk).or (ps.lookup kk)
  | [], ps, kk, _ => by simp [List.lookup]
  | (k0, v0) :: rest, ps, kk, hnd => by
      simp only [List.map_cons, List.nodup_cons] at hnd
      rw [List.foldl_cons]
      rw [foldl_dictUpd_lookup rest (dictUpd ps k0 v0) kk hnd.2]
      by_cases hkk : kk = k0
      · subst hkk
        have hr : rest.lookup kk = none :=
          lookup_eq_none_of_not_mem_keys hnd.1
        simp [List.lookup, hr, dictUpd_lookup_self]
      · have hbeq : (kk == k0) = false := by simpa using hkk
        simp [List.lookup, hbeq, dictUpd_lookup_ne ps k0 kk v0 hkk]

theorem lookup_filter_key {α : Type} (m : List (String × α))
    (P : String → Bool) (kk : String) :
    ((m.filter fun pr => P pr.1).lookup kk) =
      if P kk then m.lookup kk else none := by
  induction m with
  | nil => simp [List.lookup]
  | cons p rest ih =>
      obtain ⟨a, b⟩ := p
      by_cases hka : kk = a
      · subst hka
        by_cases hP : P kk = true
        · simp [List.filter_cons, hP, List.lookup]
        · have hP2 : P kk = false := by simpa using hP
          simp [List.filter_cons, hP2, ih]
      · have hbeq : (kk == a) = false := by simpa using hka
        by_cases hP : P a = true
        · simp [List.filter_cons, hP, List.lookup, hbeq, ih]
        · have hP2 : P a = false := by simpa using hP
          have hlr : List.lookup kk ((a, b) :: rest) = rest.lookup kk := by
            simp [List.lookup, hbeq]
          simp [List.filter_cons, hP2, ih, hlr]

theorem lookup_filter_nodup {α : Type} (m : List (String × α))
    (P : String × α → Bool) (kk : String)
    (hnd : (m.map Prod.fst).Nodup) :
    ((m.filter P).lookup kk) =
      match m.lookup kk with
      | some v => if P (kk, v) then some v else none
      | none => none := by
  induction m with
  | nil => simp [List.lookup]
  | cons p rest ih =>
      obtain ⟨a, b⟩ := p
      simp only [List.map_cons, List.nodup_cons] at hnd
      by_cases hka : kk = a
      · subst hka
        have hr : rest.lookup kk = none :=
          lookup_eq_none_of_not_mem_keys hnd.1
        by_cases hP : P (kk, b) = true
        · simp [List.filter_cons, hP, List.lookup]
        · have hP2 : P (kk, b) = false := by simpa using hP
          have hrf : ((rest.filter P).lookup kk) = none := by
            rw [ih hnd.2, hr]
          simp [List.filter_cons, hP2, List.lookup, hrf, hP]
      · have hbeq : (kk == a) = false := by simpa using hka
        by_cases hP : P (a, b) = true
        · simp [List.filter_cons, hP, List.lookup, hbeq, ih hnd.2]
        · have hP2 : P (a, b) = false := by simpa using hP
          simp [List.filter_cons, hP2, List.lookup, hbeq, ih hnd.2]

theorem updateProps_lookup (ps changed : List (String × Val))
    (removed : List String) (kk : String)
    (hnd : (changed.map Prod.fst).Nodup) :
    ((updateProps ps changed removed).lookup kk) =
      if removed.contains kk then none
      else (changed.lookup kk).or (ps.lookup kk) := by
  rw [updateProps]
  have h := lookup_filter_key
    (changed.foldl (fun acc kv => dictUpd acc kv.1 kv.2) ps)
    (fun s => !(removed.contains s)) kk
  by_cases hr : removed.contains kk = true
  · simp only [hr, Bool.not_true, if_false] at h
    simp only [hr, if_true]
    simpa using h
  · have hr2 : removed.contains kk = false := by simpa using hr
    simp only [hr2, Bool.not_false, if_true] at h
    simp only [hr2, Bool.false_eq_true, if_false]
    rw [← foldl_dictUpd_lookup changed ps kk hnd]
    simpa using h

/-!
## The round-trip fragment

The round-trip counterexamples below exploit the differ's special prop
comparisons (`str()` coercion on `text`/`value`, identity on event
handlers, `None`-aliasing of absent props).  `plainProps` carves out the
fragment free of them, on which the round trip is provable for leaves.
-/

/-- Scalar prop values on which the differ's Python `==` agrees with
structural equality and which JSON/`str` coercions cannot alias: strings,
ints and callables (no booleans, which Python equates with ints, no `None`,
which aliases an absent prop, and no composites). -/
def plainVal : Val → Bool
  | .vStr _ => true
  | .vInt _ => true
  | .vFun _ => true
  | _ => false

/-- Props avoiding the differ's special-cased names (`text`/`value`,
event handlers) and holding only `plainVal` values. -/
def plainProps (ps : List (String × Val)) : Bool :=
  ps.all fun pr =>
    (pr.1 != "text") && (pr.1 != "value") &&
      !(eventHandlerProps.contains pr.1) && plainVal pr.2

theorem plainVal_ne_vNone {v : Val} (h : plainVal v = true) : v ≠ .vNone := by
  cases v <;> simp [plainVal] at h ⊢

theorem pyEq_plain_iff {a b : Val} (ha : plainVal a = true ∨ a = .vNone)
    (hb : plainVal b = true) : (pyEq a b = true) ↔ a = b := by
  cases a <;> cases b <;>
    simp [plainVal, pyEq, canonVal, pyEqOrd] at ha hb ⊢

theorem plainProps_facts {ps : List (String × Val)} {kk : String} {v : Val}
    (h : plainProps ps = true) (hm : (kk, v) ∈ ps) :
    kk ≠ "text" ∧ kk ≠ "value" ∧ kk ∉ eventHandlerProps ∧
      plainVal v = true := by
  have hf := List.all_eq_true.mp h (kk, v) hm
  simp only [Bool.and_eq_true, bne_iff_ne, ne_eq, Bool.not_eq_true] at hf
  refine ⟨hf.1.1.1, hf.1.1.2, ?_, hf.2⟩
  intro hmem
  have : eventHandlerProps.contains kk = true := by
    exact List.elem_eq_true_of_mem hmem
  rw [this] at hf
  exact absurd hf.1.2 (by simp)

theorem propChanged_plain (kk : String) (o v : Val)
    (hkt : kk ≠ "text") (hkv : kk ≠ "value")
    (hke : kk ∉ eventHandlerProps) (hv : plainVal v = true) :
    propChanged kk o v = !(pyEq o v) := by
  unfold propChanged
  rw [if_neg (by tauto)]
  rw [if_neg hke]
  by_cases hp : pyEq o v = true
  · simp [hp]
  · have hp2 : (!(pyEq o v)) = true := by simpa using hp
    rw [if_pos hp2, hp2]
    cases v <;> (try simp [plainVal] at hv) <;> cases o <;> rfl

theorem propGet_some {ps : List (String × Val)} {kk : String} {w : Val}
    (h : ps.lookup kk = some w) : propGet ps kk = w := by
  simp [propGet, h]

theorem propGet_none {ps : List (String × Val)} {kk : String}
    (h : ps.lookup kk = none) : propGet ps kk = .vNone := by
  simp [propGet, h]

theorem diffProps_none_lookup_eq {ps1 ps2 : List (String × Val)}
    (h1 : plainProps ps1 = true) (h2 : plainProps ps2 = true)
    (hch : (ps2.filter fun pr =>
      propChanged pr.1 (propGet ps1 pr.1) pr.2) = [])
    (hrm : (ps1.filter fun pr => (ps2.lookup pr.1).isNone) = [])
    (kk : String) : ps1.lookup kk = ps2.lookup kk := by
  cases h2l : ps2.lookup kk with
  | some v =>
      have hm2 : (kk, v) ∈ ps2 := lookup_mem_self h2l
      obtain ⟨hkt, hkv, hke, hv⟩ := plainProps_facts h2 hm2
      have hnc := List.filter_eq_nil.mp hch (kk, v) hm2
      rw [propChanged_plain kk _ v hkt hkv hke hv] at hnc
      have hpe : pyEq (propGet ps1 kk) v = true := by
        simpa using hnc
      cases hl1 : ps1.lookup kk with
      | some w =>
          have hm1 : (kk, w) ∈ ps1 := lookup_mem_self hl1
          obtain ⟨-, -, -, hw⟩ := plainProps_facts h1 hm1
          rw [propGet_some hl1] at hpe
          rw [(pyEq_plain_iff (Or.inl hw) hv).mp hpe]
      | none =>
          rw [propGet_none hl1] at hpe
          have := (pyEq_plain_iff (Or.inr rfl) hv).mp hpe
          exact absurd this.symm (plainVal_ne_vNone hv)
  | none =>
      cases hl1 : ps1.lookup kk with
      | some w =>
          have hm1 : (kk, w) ∈ ps1 := lookup_mem_self hl1
          have := List.filter_eq_nil.mp hrm (kk, w) hm1
          rw [h2l] at this
          simp at this
      | none => rfl

theorem sublist_keys_nodup {ps : List (String × Val)}
    (P : String × Val → Bool) (hnd : (ps.map Prod.fst).Nodup) :
    (((ps.filter P).map Prod.fst)).Nodup :=
  List.Nodup.sublist (List.Sublist.map Prod.fst (List.filter_sublist ps)) hnd

theorem updateProps_roundtrip {ps1 ps2 : List (String × Val)}
    (h1 : plainProps ps1 = true) (h2 : plainProps ps2 = true)
    (hn1 : propsNodup ps1 = true) (hn2 : propsNodup ps2 = true)
    (kk : String) :
    ((updateProps ps1
        (ps2.filter fun pr => propChanged pr.1 (propGet ps1 pr.1) pr.2)
        ((ps1.filter fun pr => (ps2.lookup pr.1).isNone).map
          Prod.fst)).lookup kk) = ps2.lookup kk := by
  have hn2x : (ps2.map Prod.fst).Nodup := by simpa [propsNodup] using hn2
  have hndch := sublist_keys_nodup
    (fun pr => propChanged pr.1 (propGet ps1 pr.1) pr.2) hn2x
  rw [updateProps_lookup _ _ _ _ hndch]
  by_cases hcon : (((ps1.filter fun pr =>
      (ps2.lookup pr.1).isNone).map Prod.fst).contains kk) = true
  · rw [if_pos hcon]
    have hmem : kk ∈ (ps1.filter fun pr =>
        (ps2.lookup pr.1).isNone).map Prod.fst := by
      simpa using hcon
    obtain ⟨pr, hpr, hpk⟩ := List.mem_map.mp hmem
    have hfil := List.mem_filter.mp hpr
    have : (ps2.lookup pr.1).isNone = true := hfil.2
    rw [hpk] at this
    cases h2l : ps2.lookup kk with
    | some v => rw [h2l] at this; simp at this
    | none => rfl
  · have hcon2 : (((ps1.filter fun pr =>
        (ps2.lookup pr.1).isNone).map Prod.fst).contains kk) = false := by
      simpa using hcon
    rw [hcon2]
    simp only [Bool.false_eq_true, if_false]
    have hchl := lookup_filter_nodup ps2
      (fun pr => propChanged pr.1 (propGet ps1 pr.1) pr.2) kk hn2x
    cases h2l : ps2.lookup kk with
    | some v =>
        rw [h2l] at hchl
        have hm2 : (kk, v) ∈ ps2 := lookup_mem_self h2l
        obtain ⟨hkt, hkv, hke, hv⟩ := plainProps_facts h2 hm2
        by_cases hchg : propChanged kk (propGet ps1 kk) v = true
        · simp only [hchg, if_true] at hchl
          rw [hchl]
          simp [Option.or]
        · simp only [hchg] at hchl
          simp only [Bool.false_eq_true, if_false] at hchl
          rw [hchl]
          simp only [Option.or]
          rw [propChanged_plain kk _ v hkt hkv hke hv] at hchg
          have hpe : pyEq (propGet ps1 kk) v = true := by
            simpa using hchg
          cases hl1 : ps1.lookup kk with
          | some w =>
              have hm1 : (kk, w) ∈ ps1 := lookup_mem_self hl1
              obtain ⟨-, -, -, hw⟩ := plainProps_facts h1 hm1
              rw [propGet_some hl1] at hpe
              rw [(pyEq_plain_iff (Or.inl hw) hv).mp hpe]
          | none =>
              rw [propGet_none hl1] at hpe
              have := (pyEq_plain_iff (Or.inr rfl) hv).mp hpe
              exact absurd this.symm (plainVal_ne_vNone hv)
    | none =>
        rw [h2l] at hchl
        rw [hchl]
        simp only [Option.or]
        cases hl1 : ps1.lookup kk with
        | some w =>
            have hm1 : (kk, w) ∈ ps1 := lookup_mem_self hl1
            have hmemf : (kk, w) ∈ ps1.filter fun pr =>
                (ps2.lookup pr.1).isNone := by
              apply List.mem_filter.mpr
              exact ⟨hm1, by simp [h2l]⟩
            have : kk ∈ (ps1.filter fun pr =>
                (ps2.lookup pr.1).isNone).map Prod.fst :=
              List.mem_map.mpr ⟨(kk, w), hmemf, rfl⟩
            have hc := List.elem_eq_true_of_mem this
            have hcontra : ((ps1.filter fun pr =>
                (ps2.lookup pr.1).isNone).map Prod.fst).contains kk = true := by
              simpa [List.contains] using hc
            rw [hcontra] at hcon2
            simp at hcon2
        | none => rfl

/-- Diff/patch round trip on leaf nodes over the plain-props fragment:
applying `diff(A, B)`'s patches to `A` yields a tree that agrees with `B`
as a Python value (props compared as dicts, i.e. by lookup). -/
theorem roundtrip_leaf (t1 t2 : String) (k1 k2 : Option String)
    (ps1 ps2 : List (String × Val))
    (h1 : plainProps ps1 = true) (h2 : plainProps ps2 = true)
    (hn1 : propsNodup ps1 = true) (hn2 : propsNodup ps2 = true) :
    ∃ C : Node,
      applyPatchesSpec
        (diff (some (.mk t1 k1 ps1 [])) (some (.mk t2 k2 ps2 [])))
        (some (.mk t1 k1 ps1 [])) = some C ∧
      C.type = t2 ∧ C.key = k2 ∧ C.children = [] ∧
      (∀ kk, C.props.lookup kk = ps2.lookup kk) := by
  by_cases ht : t1 ≠ t2
  · refine ⟨.mk t2 k2 ps2 [], ?_, rfl, rfl, rfl, fun kk => rfl⟩
    have hd : diff (some (Node.mk t1 k1 ps1 []))
        (some (.mk t2 k2 ps2 [])) =
        [.replace [] (.mk t1 k1 ps1 []) (.mk t2 k2 ps2 [])] := by
      show diffNode _ _ _ = _
      rw [diffNode, if_pos ht]
    rw [hd]
    rfl
  · by_cases hk : k1 ≠ k2
    · refine ⟨.mk t2 k2 ps2 [], ?_, rfl, rfl, rfl, fun kk => rfl⟩
      have hd : diff (some (Node.mk t1 k1 ps1 []))
          (some (.mk t2 k2 ps2 [])) =
          [.replace [] (.mk t1 k1 ps1 []) (.mk t2 k2 ps2 [])] := by
        show diffNode _ _ _ = _
        rw [diffNode, if_neg ht, if_pos hk]
      rw [hd]
      rfl
    · have hteq : t1 = t2 := not_ne_iff.mp ht
      have hkeq : k1 = k2 := not_ne_iff.mp hk
      subst hteq
      subst hkeq
      have hd0 : diff (some (Node.mk t1 k1 ps1 []))
          (some (.mk t1 k1 ps2 [])) =
          (match diffProps ps1 ps2 [] with
           | some q => [q]
           | none => []) := by
        show diffNode _ _ _ = _
        rw [diffNode, if_neg ht, if_neg hk, diffChildren_nil,
          List.append_nil]
      cases hdp : diffProps ps1 ps2 [] with
      | none =>
          rw [hdp] at hd0
          refine ⟨.mk t1 k1 ps1 [], by rw [hd0]; rfl, rfl, rfl, rfl, ?_⟩
          rw [diffProps] at hdp
          split at hdp
          · simp at hdp
          · rename_i hcond
            push_neg at hcond
            have hch := hcond.1
            have hrm : (ps1.filter fun pr =>
                (ps2.lookup pr.1).isNone) = [] :=
              List.map_eq_nil.mp hcond.2
            exact diffProps_none_lookup_eq h1 h2 hch hrm
      | some u =>
          rw [hdp] at hd0
          rw [diffProps] at hdp
          split at hdp
          · injection hdp with hu
            subst hu
            refine ⟨.mk t1 k1 (updateProps ps1
              (ps2.filter fun pr =>
                propChanged pr.1 (propGet ps1 pr.1) pr.2)
              ((ps1.filter fun pr =>
                (ps2.lookup pr.1).isNone).map Prod.fst)) [],
              ?_, rfl, rfl, rfl, ?_⟩
            · rw [hd0]
              rfl
            · exact updateProps_roundtrip h1 h2 hn1 hn2
          · simp at hdp

/-!
## The reactive Stream

Translated from `class Stream` (lines 3132–3524).  Subscribers are abstract
callback identities (`Nat`); the wall clock (`time.time()`) is a `Nat`
passed explicitly; the thread lock serialises `set`/`subscribe`/`dispose`,
so the model is a sequential state transformer.  A pending debounce timer
is held in `debounceTimer` as the `(old, new)` notification it would fire;
`dispose` cancels it.
-/

/-- The mutable fields of a `Stream` that `set`, `_notify` and `dispose`
touch. -/
structure StreamSt where
  value : Val
  disposed : Bool
  subscribers : List Nat
  pendingValues : List Val
  backpressureLimit : Nat
  debounceDelay : Nat
  throttleDelay : Nat
  throttleLast : Nat
  debounceTimer : Option (Val × Val)
deriving Repr, DecidableEq

/-- Result of one `Stream.set` call: the stream afterwards, the diagnostics
printed, and the `(subscriber, new, old)` callbacks invoked synchronously. -/
structure SetResult where
  stream : StreamSt
  diagnostics : List String
  notified : List (Nat × Val × Val)
deriving Repr, DecidableEq

/-- `Stream._notify` (lines 3234–3250): a disposed stream notifies nobody;
otherwise every subscriber receives `(new_value, old_value)`. -/
def streamNotify (s : StreamSt) (oldv newv : Val) : List (Nat × Val × Val) :=
  if s.disposed then [] else s.subscribers.map fun i => (i, newv, oldv)

/-- `Stream.set` (lines 3173–3232): a disposed stream drops the call with a
diagnostic; otherwise the value is queued, backpressure drops the oldest
pending value past the limit, the latest pending value becomes the stream
value, and throttling/debouncing gate the notification. -/
def streamSet (s : StreamSt) (now : Nat) (newValue : Val) : SetResult :=
  if s.disposed then
    { stream := s,
      diagnostics := ["Attempting to set disposed stream"],
      notified := [] }
  else
    let pending := s.pendingValues ++ [newValue]
    let dropped := pending.length > s.backpressureLimit
    let pending2 := if dropped then pending.drop 1 else pending
    let diags := if dropped then ["Backpressure: dropped value"] else []
    match pending2.getLast? with
    | none =>
        { stream := { s with pendingValues := pending2 },
          diagnostics := diags, notified := [] }
    | some actual =>
        let oldValue := s.value
        let s1 := { s with value := actual, pendingValues := [] }
        if s1.throttleDelay > 0 ∧ now - s1.throttleLast < s1.throttleDelay then
          { stream := s1, diagnostics := diags, notified := [] }
        else
          let s2 := if s1.throttleDelay > 0 then
            { s1 with throttleLast := now } else s1
          if s2.debounceDelay > 0 then
            { stream := { s2 with debounceTimer := some (oldValue, actual) },
              diagnostics := diags, notified := [] }
          else
            { stream := s2, diagnostics := diags,
              notified := streamNotify s2 oldValue actual }

/-- `Stream.dispose` (lines 3511–3519): idempotent; cancels the debounce
timer and clears the subscribers. -/
def streamDispose (s : StreamSt) : StreamSt :=
  if s.disposed then s
  else { s with disposed := true, debounceTimer := none, subscribers := [] }

/-- The `Stream` a fresh `useState` slot creates (line 537):
`Stream(initial_value)` with the constructor defaults of lines 3136–3162. -/
def initialStream (v : Val) : StreamSt :=
  { value := v, disposed := false, subscribers := [], pendingValues := [],
    backpressureLimit := 1000, debounceDelay := 0, throttleDelay := 0,
    throttleLast := 0, debounceTimer := none }

/-!
## The hook state store

Translated from the module-level hook system (lines 462–831).  The
thread-local state manager holds the state table, the current render path
and hook ordinal, and the effect queue.  Effect functions are abstract
identities (`Nat`).
-/

/-- A `useState` slot: the backing stream, the deep-copied initial value,
and the stored slot key. -/
structure HookEntry where
  stream : StreamSt
  initial : Val
  key : String
deriving Repr, DecidableEq

/-- An effect record queued by `useEffect` (lines 623–629). -/
structure EffectRec where
  func : Nat
  deps : Option (List Val)
  path : List String
  hookIndex : Nat
deriving Repr, DecidableEq

/-- The thread-local state manager `_component_state_manager`
(lines 462–474; the fields the modelled operations touch). -/
structure Mgr where
  state : List ((List String × String) × HookEntry)
  currentPath : List String
  hookIndex : Nat
  effectQueue : List EffectRec
deriving Repr, DecidableEq

/-- `useState` (lines 492–603, the read side): fails outside a render
context (empty `current_path` is falsy), resolves the slot id as the given
key if truthy else `"hook_<index>"`, checks the stored key for collisions,
creates the slot with a fresh stream on first access, and returns the
stream's current value plus the advanced manager and the slot id the
returned setter captures. -/
def useStateModel (mgr : Mgr) (initialValue : Val) (key : Option String) :
    Except String (Val × Mgr × (List String × String)) :=
  if mgr.currentPath = [] then
    .error "useState must be called within a component render function"
  else
    let stateId :=
      match key with
      | some k => if k = "" then "hook_" ++ toString mgr.hookIndex else k
      | none => "hook_" ++ toString mgr.hookIndex
    let fullId := (mgr.currentPath, stateId)
    let collision :=
      match key, mgr.state.lookup fullId with
      | some kraw, some e => e.key != kraw
      | _, _ => false
    if collision then
      .error "useState key collision"
    else
      let st :=
        match mgr.state.lookup fullId with
        | some _ => mgr.state
        | none => mgr.state ++
            [(fullId, ({ stream := initialStream initialValue,
                         initial := initialValue,
                         key := stateId } : HookEntry))]
      match st.lookup fullId with
      | some entry =>
          .ok (entry.stream.value,
            { mgr with state := st, hookIndex := mgr.hookIndex + 1 }, fullId)
      | none => .error "unreachable: slot was just created"

/-- The context a `setState` closure works in: the slot's stream and the
wizard's global `_render_trigger` stream. -/
structure SetStateCtx where
  stream : StreamSt
  trigger : StreamSt
deriving Repr, DecidableEq

/-- `old_trigger + 1` (line 592); the trigger stream always holds an int. -/
def incrInt : Val → Val
  | .vInt n => .vInt (n + 1)
  | v => v

/-- The value path of `setState` (lines 562–593): no-op when the computed
value is Python-equal to the current one, otherwise set the stream and bump
the render trigger by one. -/
def setStateValue (ctx : SetStateCtx) (now : Nat) (v : Val) : SetStateCtx :=
  let current := ctx.stream.value
  if pyEq current v then ctx
  else
    let s2 := (streamSet ctx.stream now v).stream
    let oldTrigger := ctx.trigger.value
    let t2 := (streamSet ctx.trigger now (incrInt oldTrigger)).stream
    { stream := s2, trigger := t2 }

/-- `setState` (lines 550–598): a callable argument is an updater applied
to the current value (`none` models the updater raising, which `setState`
catches and turns into a no-op); the result then follows the value path. -/
def setStateModel (ctx : SetStateCtx) (now : Nat)
    (arg : Sum Val (Val → Option Val)) : SetStateCtx :=
  match arg with
  | .inl v => setStateValue ctx now v
  | .inr f =>
      match f ctx.stream.value with
      | some v => setStateValue ctx now v
      | none => ctx

/-- A `setState` closure captured from the slot `fullId`: updates that
slot's stream in the manager and the global trigger. -/
def mgrSetState (mgr : Mgr) (fullId : List String × String)
    (trigger : StreamSt) (now : Nat) (arg : Sum Val (Val → Option Val)) :
    Mgr × StreamSt :=
  match mgr.state.lookup fullId with
  | none => (mgr, trigger)
  | some e =>
      let ctx2 := setStateModel
        ({ stream := e.stream, trigger := trigger } : SetStateCtx) now arg
      ({ mgr with state := mgr.state.map fun pr =>
          if pr.1 == fullId then (pr.1, { e with stream := ctx2.stream })
          else pr },
       ctx2.trigger)

/-- `useEffect` (lines 605–631): fails outside a render context, otherwise
queues the effect record (function, deps, path, ordinal) and advances the
hook index.  The stored `deps` field is never read back anywhere in the
source. -/
def useEffectModel (mgr : Mgr) (func : Nat) (deps : Option (List Val)) :
    Except String Mgr :=
  if mgr.currentPath = [] then
    .error "useEffect must be called within a component"
  else
    .ok { mgr with
      effectQueue := mgr.effectQueue ++
        [{ func := func, deps := deps, path := mgr.currentPath,
           hookIndex := mgr.hookIndex }],
      hookIndex := mgr.hookIndex + 1 }

/-- `_flush_effects` (lines 821–831): copy the queue, clear it, and run
every queued effect unconditionally (per-effect exceptions go to the error
boundary).  Returns the manager and the functions run, in order. -/
def flushEffects (mgr : Mgr) : Mgr × List Nat :=
  ({ mgr with effectQueue := [] }, mgr.effectQueue.map fun e => e.func)

/-!
## Bounded component expansion

Translated from `PyUIWizard._expand_vdom_components` (lines 4390–4473).
Pre-expansion trees carry either a primitive tag or a component; a
component's behaviour is its render function from props to an optional
tree (`none` models a render returning `None`).  The hook context
management and the render-path bookkeeping do not affect the depth bound
and are omitted.
-/

mutual

/-- The `type` of a pre-expansion node: a primitive tag, or a component
(function or `Component` class) to be rendered. -/
inductive XType where
  | prim : String → XType
  | comp : (List (String × Val) → Option XNode) → XType

/-- A pre-expansion VDOM node. -/
inductive XNode where
  | mk : XType → Option String → List (String × Val) → List XNode → XNode

end

/-- `MAX_DEPTH` of `_expand_vdom_components` (line 4396). -/
def MAX_DEPTH : Nat := 100

mutual

/-- `_expand_vdom_components` (lines 4390–4473): raise past `MAX_DEPTH`
(modelled as `Except.error`); a component node is rendered (a `None` render
becomes an empty `frame`, a falsy component key is not preserved onto an
unkeyed rendered root) and the rendered tree's children are expanded one
level deeper — the rendered root itself is returned as-is, component or
not; a regular node keeps its fields and expands its children one level
deeper. -/
def expandNode (depth : Nat) (node : XNode) : Except String XNode :=
  if depth > MAX_DEPTH then
    .error "Component expansion depth exceeded"
  else
    match node with
    | .mk (.comp render) key props _ =>
        match render props with
        | none => .ok (.mk (.prim "frame") none [] [])
        | some (.mk rt rk rp rc) =>
            let rk2 :=
              match key with
              | some k => if k ≠ "" ∧ rk = none then some k else rk
              | none => rk
            match expandList (depth + 1) rc with
            | .error e => .error e
            | .ok rc2 => .ok (.mk rt rk2 rp rc2)
    | .mk (.prim t) key props cs =>
        match expandList (depth + 1) cs with
        | .error e => .error e
        | .ok cs2 => .ok (.mk (.prim t) key props cs2)
termination_by (MAX_DEPTH + 1 - depth, sizeOf node)
decreasing_by
  · apply Prod.Lex.left
    simp [MAX_DEPTH] at *
    omega
  · apply Prod.Lex.left
    simp [MAX_DEPTH] at *
    omega

/-- The `[self._expand_vdom_components(child, current_path, _depth + 1)
for child in ...]` comprehensions: expand each child, propagating the first
error. -/
def expandList (depth : Nat) (l : List XNode) : Except String (List XNode) :=
  match l with
  | [] => .ok []
  | c :: cs =>
      match expandNode depth c with
      | .error e => .error e
      | .ok c2 =>
          match expandList depth cs with
          | .error e => .error e
          | .ok cs2 => .ok (c2 :: cs2)
termination_by (MAX_DEPTH + 1 - depth, sizeOf l)
decreasing_by
  · apply Prod.Lex.right
    simp
    omega
  · apply Prod.Lex.right
    simp

end

/-- A family of finite trees whose expansion nests one component per level:
level `n + 1` is a component rendering a `frame` whose only child is level
`n`.  It stands in for the self-referential component trees the depth bound
guards against (a genuinely cyclic tree is not a finite value). -/
def nestedComp : Nat → XNode
  | 0 => .mk (.prim "label") none [] []
  | n + 1 =>
      .mk (.comp fun _ => some (.mk (.prim "frame") none [] [nestedComp n]))
        none [] []

theorem lookup_append_of_none {κ α : Type} [BEq κ] [LawfulBEq κ]
    {m : List (κ × α)} {k : κ} {v : α} (h : m.lookup k = none) :
    ((m ++ [(k, v)]).lookup k) = some v := by
  induction m with
  | nil => simp [List.lookup]
  | cons pr rest ih =>
      obtain ⟨a, b⟩ := pr
      by_cases hk : (k == a) = true
      · simp only [List.lookup, hk] at h
        simp at h
      · have hk2 : (k == a) = false := by simpa using hk
        simp only [List.lookup, hk2] at h
        simp only [List.cons_append, List.lookup, hk2]
        exact ih h

theorem lookup_map_override {κ α : Type} [BEq κ] [LawfulBEq κ]
    {m : List (κ × α)} {k : κ} {e : α} (f : α)
    (h : m.lookup k = some e) :
    ((m.map fun pr => if pr.1 == k then (pr.1, f) else pr).lookup k) =
      some f := by
  induction m with
  | nil => simp [List.lookup] at h
  | cons pr rest ih =>
      obtain ⟨a, b⟩ := pr
      by_cases hk : (k == a) = true
      · have hak : (a == k) = true := by
          have : k = a := by simpa using hk
          simp [this]
        simp only [List.map_cons]
        rw [if_pos hak]
        simp [List.lookup, hk]
      · have hk2 : (k == a) = false := by simpa using hk
        have hak : (a == k) = false := by
          have hne : ¬ k = a := by simpa using hk
          simpa using fun he => hne he.symm
        simp only [List.lookup, hk2] at h
        simp only [List.map_cons]
        rw [if_neg (by simp [hak])]
        simp only [List.lookup, hk2]
        exact ih h

theorem lookup_map_override_ne {κ α : Type} [BEq κ] [LawfulBEq κ]
    {m : List (κ × α)} {k k2 : κ} (f : α) (hne : k2 ≠ k) :
    ((m.map fun pr => if pr.1 == k then (pr.1, f) else pr).lookup k2) =
      m.lookup k2 := by
  induction m with
  | nil => rfl
  | cons pr rest ih =>
      obtain ⟨a, b⟩ := pr
      simp only [List.map_cons]
      by_cases hak : (a == k) = true
      · rw [if_pos hak]
        have hae : a = k := by simpa using hak
        have h2 : (k2 == a) = false := by simpa using hae ▸ hne
        simp only [List.lookup, h2]
        exact ih
      · rw [if_neg hak]
        by_cases h2 : (k2 == a) = true
        · simp [List.lookup, h2]
        · have h3 : (k2 == a) = false := by simpa using h2
          simp only [List.lookup, h3]
          exact ih

/-- A live stream with no debounce/throttle and an empty pending queue
accepts a `set` as a plain value assignment with synchronous delivery. -/
theorem streamSet_live (s : StreamSt) (now : Nat) (v : Val)
    (hd : s.disposed = false) (hdb : s.debounceDelay = 0)
    (hth : s.throttleDelay = 0) (hpv : s.pendingValues = [])
    (hbl : s.backpressureLimit = 1000) :
    (streamSet s now v).stream = { s with value := v, pendingValues := [] } ∧
    (streamSet s now v).notified =
      s.subscribers.map fun i => (i, v, s.value) := by
  obtain ⟨val, disp, subs, pend, bl, db, th, tl, dt⟩ := s
  dsimp only at hd hdb hth hpv hbl
  subst hd
  subst hdb
  subst hth
  subst hpv
  subst hbl
  exact ⟨rfl, rfl⟩

/-- First `useState` access for a fresh `(path, key)` slot: a stream seeded
with the initial value is created and the initial value returned. -/
theorem useState_first_access
    (mgr0 : Mgr) (p : List String) (k : String) (initialValue : Val)
    (hp : p ≠ []) (hk : k ≠ "") (hpath : mgr0.currentPath = p)
    (hfresh : mgr0.state.lookup (p, k) = none) :
    useStateModel mgr0 initialValue (some k) =
      .ok (initialValue,
        { mgr0 with
          state := mgr0.state ++
            [((p, k), { stream := initialStream initialValue,
                        initial := initialValue, key := k })],
          hookIndex := mgr0.hookIndex + 1 }, (p, k)) := by
  rw [useStateModel]
  rw [if_neg (by rw [hpath]; exact hp)]
  rw [hpath]
  simp only [if_neg hk]
  simp only [hfresh]
  simp only [Bool.false_eq_true, if_false]
  rw [lookup_append_of_none hfresh]
  rfl

/-- A subsequent `useState` access for an existing slot returns the
existing stream's current value and leaves the table unchanged. -/
theorem useState_existing_access
    (mgr : Mgr) (p : List String) (k : String)
    (initialValue : Val) (e : HookEntry)
    (hp : p ≠ []) (hk : k ≠ "") (hpath : mgr.currentPath = p)
    (hkey : e.key = k)
    (hfound : mgr.state.lookup (p, k) = some e) :
    useStateModel mgr initialValue (some k) =
      .ok (e.stream.value,
        { mgr with hookIndex := mgr.hookIndex + 1 }, (p, k)) := by
  rw [useStateModel]
  rw [if_neg (by rw [hpath]; exact hp)]
  rw [hpath]
  simp only [if_neg hk]
  simp only [hfound]
  rw [if_neg (by simp [hkey])]

/-- `mgrSetState` on a slot that exists: the slot's stream and the trigger
evolve by `setStateValue`. -/
theorem mgrSetState_set (mgr : Mgr) (fullId : List String × String)
    (trigger : StreamSt) (now : Nat) (v : Val) (e : HookEntry)
    (hfound : mgr.state.lookup fullId = some e) :
    mgrSetState mgr fullId trigger now (.inl v) =
      ({ mgr with state := mgr.state.map fun pr =>
          if pr.1 == fullId then
            (pr.1, { e with stream :=
              (setStateValue ⟨e.stream, trigger⟩ now v).stream })
          else pr },
       (setStateValue ⟨e.stream, trigger⟩ now v).trigger) := by
  rw [mgrSetState, hfound]
  rfl

/-- Setting a fresh hook stream to a Python-unequal value replaces its
value (a fresh stream has no debounce, throttle or subscribers). -/
theorem setStateValue_initial (initialValue v : Val) (trigger : StreamSt)
    (now : Nat) (hchange : pyEq initialValue v = false) :
    (setStateValue ⟨initialStream initialValue, trigger⟩ now v).stream =
      initialStream v := by
  rw [setStateValue]
  rw [if_neg (by simpa [initialStream] using hchange)]
  rfl

theorem expandNode_nested_error :
    ∀ (n depth : Nat), MAX_DEPTH + 2 ≤ depth + n →
    ∃ e, expandNode depth (nestedComp n) = .error e := by
  intro n
  induction n with
  | zero =>
      intro depth hd
      refine ⟨"Component expansion depth exceeded", ?_⟩
      rw [nestedComp, expandNode, if_pos (by simp [MAX_DEPTH] at hd ⊢; omega)]
  | succ n ih =>
      intro depth hd
      by_cases hdeep : depth > MAX_DEPTH
      · exact ⟨"Component expansion depth exceeded",
          by rw [nestedComp, expandNode, if_pos hdeep]⟩
      · obtain ⟨e, he⟩ := ih (depth + 1) (by omega)
        refine ⟨e, ?_⟩
        rw [nestedComp, expandNode, if_neg hdeep]
        simp only [expandList, he]

/-!
## Claims
-/

/-- C1, counterexample: the diff/patch round trip fails as stated.  For
`A = \x7b'type': 'label', 'props': \x7b'text': 1\x7d\x7d` and the same
node with `'text': "1"`, the differ compares the `text` prop by `str()`
(line 325) and finds no change, so `diff(A, B) = []`, applying the patches
leaves `A` unchanged, and `A` is not structurally equal to `B` (the values
`1` and `"1"` differ in type and under Python `==`). -/
theorem C1_roundtrip_counterexample :
    diff (some (Node.mk "label" none [("text", .vInt 1)] []))
      (some (Node.mk "label" none [("text", .vStr "1")] [])) = [] ∧
    applyPatchesSpec
      (diff (some (Node.mk "label" none [("text", .vInt 1)] []))
        (some (Node.mk "label" none [("text", .vStr "1")] [])))
      (some (Node.mk "label" none [("text", .vInt 1)] [])) =
      some (Node.mk "label" none [("text", .vInt 1)] []) ∧
    Node.mk "label" none [("text", .vInt 1)] [] ≠
      Node.mk "label" none [("text", .vStr "1")] [] ∧
    pyEq (.vInt 1) (.vStr "1") = false := by
  have hdiff : diff (some (Node.mk "label" none [("text", .vInt 1)] []))
      (some (Node.mk "label" none [("text", .vStr "1")] [])) = [] := by
    show diffNode _ _ _ = []
    rw [diffNode]
    have hdp : diffProps [("text", Val.vInt 1)] [("text", Val.vStr "1")] []
        = none := by decide
    simp [hdp, diffChildren_nil]
  refine ⟨hdiff, ?_, by decide, by decide⟩
  rw [hdiff]
  rfl

/-- C1, amended: applying `diff(A, B)`'s patches to a copy of `A` yields a
tree Python-equal to `B` for root creation/removal (absent trees), and for
leaf nodes whose props avoid the differ's special-cased comparisons: no
`text`/`value` or event-handler names, only plain scalar values (strings,
ints, callables), and no duplicate keys.  Props of the resulting tree agree
with `B`'s as Python dicts (by lookup). -/
theorem C1_roundtrip_amended :
    (∀ A : Node, applyPatchesSpec (diff (some A) none) (some A) = none) ∧
    (∀ B : Node, applyPatchesSpec (diff none (some B)) none = some B) ∧
    (∀ (t1 t2 : String) (k1 k2 : Option String)
        (ps1 ps2 : List (String × Val)),
      plainProps ps1 = true → plainProps ps2 = true →
      propsNodup ps1 = true → propsNodup ps2 = true →
      ∃ C : Node,
        applyPatchesSpec
          (diff (some (.mk t1 k1 ps1 [])) (some (.mk t2 k2 ps2 [])))
          (some (.mk t1 k1 ps1 [])) = some C ∧
        C.type = t2 ∧ C.key = k2 ∧ C.children = [] ∧
        (∀ kk, C.props.lookup kk = ps2.lookup kk)) :=
  ⟨fun _ => rfl, fun _ => rfl,
   fun t1 t2 k1 k2 ps1 ps2 h1 h2 hn1 hn2 =>
     roundtrip_leaf t1 t2 k1 k2 ps1 ps2 h1 h2 hn1 hn2⟩

theorem C1_roundtrip_amended_witness :
    plainProps [("color", Val.vStr "red")] = true ∧
    plainProps [("color", Val.vStr "blue")] = true ∧
    propsNodup [("color", Val.vStr "red")] = true ∧
    propsNodup [("color", Val.vStr "blue")] = true ∧
    (∃ C : Node,
      applyPatchesSpec
        (diff (some (.mk "label" none [("color", Val.vStr "red")] []))
          (some (.mk "label" none [("color", Val.vStr "blue")] [])))
        (some (.mk "label" none [("color", Val.vStr "red")] [])) = some C ∧
      C.type = "label" ∧ C.key = none ∧ C.children = [] ∧
      (∀ kk, C.props.lookup kk =
        ([("color", Val.vStr "blue")] : List (String × Val)).lookup kk)) :=
  ⟨by decide, by decide, by decide, by decide,
   C1_roundtrip_amended.2.2 "label" "label" none none
     [("color", Val.vStr "red")] [("color", Val.vStr "blue")]
     (by decide) (by decide) (by decide) (by decide)⟩

/-- C2: keyed children diffing.  When any new child has a key, keyed
diffing runs; a `MOVE` at the parent path is emitted for a key exactly when
the key is in both maps with different indices; a `CREATE`/`REMOVE` at
`path + [key]` exactly when the key is only in the new/old map; a key in
both maps has its child recursively diffed at `path + [key]` with all
patches carried; and reordering keyed `[a, b, c]` to `[c, a, b]` with
unchanged children yields exactly three `MOVE` patches. -/
theorem C2_keyed_children_diffing :
    (∀ (oldC newC : List Node) (p : List PathElem),
      (newC.any fun c => c.key.isSome) = true →
      diffChildren oldC newC p = diffKeyed oldC newC p) ∧
    (∀ (oldC newC : List Node) (p : List PathElem) (k : String) (oi ni : Nat),
      Patch.move p k oi ni ∈ diffKeyed oldC newC p ↔
        ∃ oc nc, (buildByKey oldC).lookup k = some (oi, oc) ∧
          (buildByKey newC).lookup k = some (ni, nc) ∧ oi ≠ ni) ∧
    (∀ (oldC newC : List Node) (p : List PathElem) (k : String) (nc : Node),
      Patch.create (p ++ [.key k]) nc ∈ diffKeyed oldC newC p ↔
        ∃ ni, (buildByKey newC).lookup k = some (ni, nc) ∧
          (buildByKey oldC).lookup k = none) ∧
    (∀ (oldC newC : List Node) (p : List PathElem) (k : String) (oc : Node),
      Patch.remove (p ++ [.key k]) (some oc) ∈ diffKeyed oldC newC p ↔
        ∃ oi, (buildByKey oldC).lookup k = some (oi, oc) ∧
          (buildByKey newC).lookup k = none) ∧
    (∀ (oldC newC : List Node) (p : List PathElem) (k : String)
        (oi ni : Nat) (oc nc : Node),
      (buildByKey oldC).lookup k = some (oi, oc) →
      (buildByKey newC).lookup k = some (ni, nc) →
      ∀ q ∈ diffNode oc nc (p ++ [.key k]), q ∈ diffKeyed oldC newC p) ∧
    (∀ (a b c : Node) (p : List PathElem) (ka kb kc : String),
      a.key = some ka → b.key = some kb → c.key = some kc →
      ka ≠ kb → ka ≠ kc → kb ≠ kc →
      nodeWF a = true → nodeWF b = true → nodeWF c = true →
      diffChildren [a, b, c] [c, a, b] p =
        [.move p kc 2 0, .move p ka 0 1, .move p kb 1 2]) :=
  ⟨fun oldC newC p h => by rw [diffChildren, if_pos h],
   fun _ _ _ _ _ _ => move_mem_diffKeyed,
   fun _ _ _ _ _ => create_mem_diffKeyed,
   fun _ _ _ _ _ => remove_mem_diffKeyed,
   fun _ _ _ _ _ _ _ _ hfo hfn => recurse_sub_diffKeyed hfo hfn,
   diffChildren_reorder⟩

/-- C3, counterexample: idempotence fails on absent trees.  The differ
checks `if not new_vdom` first (line 215), so `diff(None, None)` is a
single root `REMOVE`, not `[]`. -/
theorem C3_idempotence_counterexample :
    diff none none = [Patch.remove [] none] ∧ diff none none ≠ [] := by
  exact ⟨rfl, by decide⟩

/-- C3, amended: `diff(A, A) = []` for every present tree `A` (whose props
dicts carry no duplicate keys, as real Python dicts guarantee). -/
theorem C3_idempotence_amended :
    ∀ A : Node, nodeWF A = true → diff (some A) (some A) = [] :=
  fun A h => diffNode_self A h []

/-- C4, counterexample: the `UPDATE` changed-set is not "props whose value
differs under deep/value equality".  Adding an `onClick` handler where the
old props had none changes the prop's value (from `None` to a callable),
but `_diff_props` only marks event-handler props when *both* values are
callable (line 331), so no `UPDATE` is emitted.  Likewise `text: 1` versus
`text: "1"` differs under Python `==` but is compared by `str()`. -/
theorem C4_props_counterexample :
    diffProps [] [("onClick", Val.vFun 7)] [] = none ∧
    pyEq (propGet [] "onClick") (Val.vFun 7) = false ∧
    diffProps [("text", Val.vInt 1)] [("text", Val.vStr "1")] [] = none ∧
    pyEq (propGet [("text", Val.vInt 1)] "text") (Val.vStr "1") = false := by
  decide

/-- C4, amended: for props whose composite values are JSON-serialisable
(`valJsonSafe`, so `_diff_props`'s canonical-JSON confirmation cannot raise
`TypeError` and abort the diff), the `changed` dict contains exactly the
props present in `new` that the three-way comparison marks changed (`str()`
for `text`/`value`, identity when both values are callable for
event-handler names — otherwise those names are never marked — and Python
`==` with a canonical-JSON confirmation for composite values, against
`old.get(key)`, so an absent old prop compares as `None`); `removed`
contains exactly the props present in `old` and absent from `new`; and an
`UPDATE` patch is emitted exactly when either set is non-empty. -/
theorem C4_props_diffing_amended :
    ∀ (oldP newP : List (String × Val)) (path : List PathElem),
    (∀ pr ∈ oldP, valJsonSafe pr.2 = true) →
    (∀ pr ∈ newP, valJsonSafe pr.2 = true) →
    ((diffProps oldP newP path).isSome ↔
      ((∃ pr ∈ newP, propChanged pr.1 (propGet oldP pr.1) pr.2 = true) ∨
       (∃ pr ∈ oldP, newP.lookup pr.1 = none))) ∧
    (∀ changed removed,
      diffProps oldP newP path = some (.update path changed removed) →
      ((∀ kk vv, ((kk, vv) ∈ changed ↔
          (kk, vv) ∈ newP ∧ propChanged kk (propGet oldP kk) vv = true)) ∧
       (∀ kk, (kk ∈ removed ↔
          ∃ vv, (kk, vv) ∈ oldP ∧ newP.lookup kk = none)))) ∧
    (∀ u, diffProps oldP newP path = some u →
      ∃ changed removed, u = Patch.update path changed removed) := by
  intro oldP newP path hjo hjn
  refine ⟨?_, ?_, ?_⟩
  · rw [diffProps]
    by_cases hcond : ((newP.filter fun pr =>
        propChanged pr.1 (propGet oldP pr.1) pr.2) ≠ [] ∨
        ((oldP.filter fun pr => (newP.lookup pr.1).isNone).map
          Prod.fst) ≠ [])
    · rw [if_pos hcond]
      simp only [Option.isSome_some, true_iff]
      rcases hcond with hc | hr
      · obtain ⟨pr, hpr⟩ := List.exists_mem_of_ne_nil _ hc
        have hm := List.mem_filter.mp hpr
        exact Or.inl ⟨pr, hm.1, hm.2⟩
      · have hf : (oldP.filter fun pr =>
            (newP.lookup pr.1).isNone) ≠ [] := by
          intro he
          rw [he] at hr
          simp at hr
        obtain ⟨pr, hpr⟩ := List.exists_mem_of_ne_nil _ hf
        have hm := List.mem_filter.mp hpr
        refine Or.inr ⟨pr, hm.1, ?_⟩
        have := hm.2
        cases hl : newP.lookup pr.1 with
        | some w => rw [hl] at this; simp at this
        | none => rfl
    · rw [if_neg hcond]
      simp only [Option.isSome_none, Bool.false_eq_true, false_iff]
      push_neg at hcond
      intro hrhs
      rcases hrhs with ⟨pr, hm, hp⟩ | ⟨pr, hm, hl⟩
      · have := List.filter_eq_nil.mp hcond.1 pr hm
        exact this (by simpa using hp)
      · have hfe : (oldP.filter fun pr =>
            (newP.lookup pr.1).isNone) = [] :=
          List.map_eq_nil.mp hcond.2
        have := List.filter_eq_nil.mp hfe pr hm
        apply this
        simp [hl]
  · intro changed removed heq
    rw [diffProps] at heq
    split at heq
    · injection heq with h2
      injection h2 with hpath hch hrm
      constructor
      · intro kk vv
        rw [← hch]
        constructor
        · intro hmem
          have hm := List.mem_filter.mp hmem
          exact ⟨hm.1, by simpa using hm.2⟩
        · intro ⟨hm, hp⟩
          exact List.mem_filter.mpr ⟨hm, by simpa using hp⟩
      · intro kk
        rw [← hrm]
        constructor
        · intro hmem
          obtain ⟨pr, hprf, hfst⟩ := List.mem_map.mp hmem
          have hm := List.mem_filter.mp hprf
          refine ⟨pr.2, ?_, ?_⟩
          · rw [← hfst]
            exact hm.1
          · have := hm.2
            rw [hfst] at this
            cases hl : newP.lookup kk with
            | some w => rw [hl] at this; simp at this
            | none => rfl
        · intro ⟨vv, hm, hl⟩
          refine List.mem_map.mpr ⟨(kk, vv), ?_, rfl⟩
          exact List.mem_filter.mpr ⟨hm, by simp [hl]⟩
    · simp at heq
  · intro u heq
    rw [diffProps] at heq
    split at heq
    · injection heq with h2
      exact ⟨_, _, h2.symm⟩
    · simp at heq

theorem C2_keyed_children_witness :
    (Node.mk "item" (some "a") [] []).key = some "a" ∧
    (Node.mk "item" (some "b") [] []).key = some "b" ∧
    (Node.mk "item" (some "c") [] []).key = some "c" ∧
    ("a" : String) ≠ "b" ∧ ("a" : String) ≠ "c" ∧ ("b" : String) ≠ "c" ∧
    nodeWF (Node.mk "item" (some "a") [] []) = true ∧
    nodeWF (Node.mk "item" (some "b") [] []) = true ∧
    nodeWF (Node.mk "item" (some "c") [] []) = true ∧
    diffChildren
      [Node.mk "item" (some "a") [] [], Node.mk "item" (some "b") [] [],
       Node.mk "item" (some "c") [] []]
      [Node.mk "item" (some "c") [] [], Node.mk "item" (some "a") [] [],
       Node.mk "item" (some "b") [] []] [] =
      [.move [] "c" 2 0, .move [] "a" 0 1, .move [] "b" 1 2] :=
  ⟨rfl, rfl, rfl, by decide, by decide, by decide, by decide, by decide,
   by decide,
   C2_keyed_children_diffing.2.2.2.2.2
     (Node.mk "item" (some "a") [] []) (Node.mk "item" (some "b") [] [])
     (Node.mk "item" (some "c") [] []) [] "a" "b" "c" rfl rfl rfl
     (by decide) (by decide) (by decide) (by decide) (by decide)
     (by decide)⟩

theorem C3_idempotence_witness :
    nodeWF (Node.mk "label" none [("text", Val.vStr "hi")] []) = true ∧
    diff (some (Node.mk "label" none [("text", Val.vStr "hi")] []))
      (some (Node.mk "label" none [("text", Val.vStr "hi")] [])) = [] :=
  ⟨by decide, C3_idempotence_amended _ (by decide)⟩

theorem C4_props_diffing_amended_witness :
    diffProps [("width", Val.vInt 1)] [("width", Val.vInt 2)] [] =
      some (.update [] [("width", Val.vInt 2)] []) ∧
    ((∀ kk vv, ((kk, vv) ∈ ([("width", Val.vInt 2)] : List (String × Val)) ↔
        (kk, vv) ∈ ([("width", Val.vInt 2)] : List (String × Val)) ∧
          propChanged kk (propGet [("width", Val.vInt 1)] kk) vv = true)) ∧
     (∀ kk, (kk ∈ ([] : List String) ↔
        ∃ vv, (kk, vv) ∈ ([("width", Val.vInt 1)] : List (String × Val)) ∧
          ([("width", Val.vInt 2)] : List (String × Val)).lookup kk =
            none))) :=
  ⟨by decide,
   (C4_props_diffing_amended [("width", Val.vInt 1)]
     [("width", Val.vInt 2)] [] (by decide) (by decide)).2.1
     [("width", Val.vInt 2)] [] (by decide)⟩

/-- C5: `setState` semantics on a live hook stream (no debounce/throttle,
as `useState` creates them; `t` is the current render-trigger count).  A
callable argument computes `updater(currentValue)`; a computed value
Python-equal to the current one is a complete no-op; otherwise the stream
takes the new value and the render trigger increments by exactly one. -/
theorem C5_setState_semantics (ctx : SetStateCtx) (now : Nat) (t : Int)
    (hd : ctx.stream.disposed = false) (hdb : ctx.stream.debounceDelay = 0)
    (hth : ctx.stream.throttleDelay = 0)
    (hpv : ctx.stream.pendingValues = [])
    (hbl : ctx.stream.backpressureLimit = 1000)
    (htd : ctx.trigger.disposed = false)
    (htdb : ctx.trigger.debounceDelay = 0)
    (htth : ctx.trigger.throttleDelay = 0)
    (htpv : ctx.trigger.pendingValues = [])
    (htbl : ctx.trigger.backpressureLimit = 1000)
    (htv : ctx.trigger.value = .vInt t) :
    (∀ (f : Val → Option Val) (v : Val), f ctx.stream.value = some v →
      setStateModel ctx now (.inr f) = setStateValue ctx now v) ∧
    (∀ v : Val, pyEq ctx.stream.value v = true →
      setStateValue ctx now v = ctx) ∧
    (∀ v : Val, pyEq ctx.stream.value v = false →
      (setStateValue ctx now v).stream.value = v ∧
      (setStateValue ctx now v).trigger.value = .vInt (t + 1)) := by
  refine ⟨?_, ?_, ?_⟩
  · intro f v hf
    rw [setStateModel, hf]
  · intro v hv
    rw [setStateValue, if_pos hv]
  · intro v hv
    rw [setStateValue, if_neg (by simp [hv])]
    constructor
    · show (streamSet ctx.stream now v).stream.value = v
      rw [(streamSet_live ctx.stream now v hd hdb hth hpv hbl).1]
    · show (streamSet ctx.trigger now
        (incrInt ctx.trigger.value)).stream.value = .vInt (t + 1)
      rw [htv]
      rw [(streamSet_live ctx.trigger now (incrInt (.vInt t))
        htd htdb htth htpv htbl).1]
      rfl

theorem C5_setState_semantics_witness :
    pyEq ((⟨initialStream (Val.vInt 0), initialStream (Val.vInt 0)⟩ :
      SetStateCtx).stream.value) (Val.vInt 5) = false ∧
    ((setStateValue
        ⟨initialStream (Val.vInt 0), initialStream (Val.vInt 0)⟩ 0
        (Val.vInt 5)).stream.value = Val.vInt 5 ∧
     (setStateValue
        ⟨initialStream (Val.vInt 0), initialStream (Val.vInt 0)⟩ 0
        (Val.vInt 5)).trigger.value = Val.vInt (0 + 1)) :=
  ⟨by decide,
   (C5_setState_semantics
     ⟨initialStream (Val.vInt 0), initialStream (Val.vInt 0)⟩ 0 0
     rfl rfl rfl rfl rfl rfl rfl rfl rfl rfl rfl).2.2 (Val.vInt 5)
     (by decide)⟩

/-- C6: hook state persistence and identity.  A first `useState` access
for a fresh `(render path, key)` creates a stream seeded with the initial
value and returns it; subsequent accesses with the same path and key
return the existing stream's current value — after a `setState` to a
Python-unequal `v`, the next render reads `v`, never the initializer. -/
theorem C6_hook_state_persistence
    (mgr0 : Mgr) (p : List String) (k : String)
    (initialValue v : Val) (trigger : StreamSt) (now : Nat)
    (hp : p ≠ []) (hk : k ≠ "") (hpath : mgr0.currentPath = p)
    (hfresh : mgr0.state.lookup (p, k) = none)
    (hchange : pyEq initialValue v = false) :
    ∃ mgr1,
      useStateModel mgr0 initialValue (some k) =
        .ok (initialValue, mgr1, (p, k)) ∧
      mgr1.state.lookup (p, k) =
        some { stream := initialStream initialValue,
               initial := initialValue, key := k } ∧
      (∀ hookIdx : Nat,
        useStateModel { mgr1 with currentPath := p, hookIndex := hookIdx }
          initialValue (some k) =
          .ok (initialValue,
            { mgr1 with currentPath := p, hookIndex := hookIdx + 1 },
            (p, k))) ∧
      (∀ mgr2 trig2,
        mgrSetState mgr1 (p, k) trigger now (.inl v) = (mgr2, trig2) →
        ∀ hookIdx : Nat, ∃ mgr3,
          useStateModel { mgr2 with currentPath := p, hookIndex := hookIdx }
            initialValue (some k) = .ok (v, mgr3, (p, k))) ∧
      v ≠ initialValue := by
  refine ⟨_, useState_first_access mgr0 p k initialValue hp hk hpath hfresh,
    lookup_append_of_none hfresh, ?_, ?_, ?_⟩
  · intro hookIdx
    exact useState_existing_access
      { state := mgr0.state ++
          [((p, k), ({ stream := initialStream initialValue,
                       initial := initialValue,
                       key := k } : HookEntry))],
        currentPath := p, hookIndex := hookIdx,
        effectQueue := mgr0.effectQueue }
      p k initialValue
      ({ stream := initialStream initialValue, initial := initialValue,
         key := k } : HookEntry)
      hp hk rfl rfl (lookup_append_of_none hfresh)
  · intro mgr2 trig2 heq hookIdx
    have hfound1 : (mgr0.state ++
        [((p, k), ({ stream := initialStream initialValue,
                     initial := initialValue,
                     key := k } : HookEntry))]).lookup (p, k) =
        some { stream := initialStream initialValue,
               initial := initialValue, key := k } :=
      lookup_append_of_none hfresh
    rw [mgrSetState_set _ _ _ _ _ _ hfound1] at heq
    injection heq with hm2 ht2
    subst hm2
    have hfound2 := lookup_map_override
      ({ stream := (setStateValue
           ⟨initialStream initialValue, trigger⟩ now v).stream,
         initial := initialValue, key := k } : HookEntry) hfound1
    have hs := useState_existing_access
      { state :=
          (mgr0.state ++
            [((p, k),
              ({ stream := initialStream initialValue,
                 initial := initialValue,
                 key := k } : HookEntry))]).map fun pr =>
            if pr.1 == (p, k) then
              (pr.1,
                ({ stream :=
                     (setStateValue ⟨initialStream initialValue, trigger⟩
                         now v).stream,
                   initial := initialValue, key := k } : HookEntry))
            else pr,
        currentPath := p, hookIndex := hookIdx,
        effectQueue := mgr0.effectQueue }
      p k initialValue
      ({ stream :=
           (setStateValue ⟨initialStream initialValue, trigger⟩
               now v).stream,
         initial := initialValue, key := k } : HookEntry)
      hp hk rfl rfl hfound2
    have hxv : (setStateValue
        ⟨initialStream initialValue, trigger⟩ now v).stream.value = v := by
      rw [setStateValue_initial initialValue v trigger now hchange]
      rfl
    exact ⟨_, hxv ▸ hs⟩
  · intro he
    rw [he, pyEq_refl] at hchange
    simp at hchange

/-- A fresh state manager at render path `["app"]`, as the scheduler
resets it at the start of a pass. -/
def freshMgr : Mgr :=
  { state := [], currentPath := ["app"], hookIndex := 0, effectQueue := [] }

theorem C6_hook_state_persistence_witness :
    (["app"] : List String) ≠ [] ∧ ("count" : String) ≠ "" ∧
    freshMgr.currentPath = ["app"] ∧
    freshMgr.state.lookup (["app"], "count") = none ∧
    pyEq (Val.vInt 0) (Val.vInt 3) = false ∧
    (∃ mgr1,
      useStateModel freshMgr (Val.vInt 0) (some "count") =
        .ok (Val.vInt 0, mgr1, (["app"], "count")) ∧
      mgr1.state.lookup (["app"], "count") =
        some { stream := initialStream (Val.vInt 0),
               initial := Val.vInt 0, key := "count" } ∧
      (∀ hookIdx : Nat,
        useStateModel
          { mgr1 with currentPath := ["app"], hookIndex := hookIdx }
          (Val.vInt 0) (some "count") =
          .ok (Val.vInt 0,
            { mgr1 with
              currentPath := ["app"],
              hookIndex := hookIdx + 1 }, (["app"], "count"))) ∧
      (∀ mgr2 trig2,
        mgrSetState mgr1 (["app"], "count") (initialStream (Val.vInt 0)) 0
          (.inl (Val.vInt 3)) = (mgr2, trig2) →
        ∀ hookIdx : Nat, ∃ mgr3,
          useStateModel
            { mgr2 with currentPath := ["app"], hookIndex := hookIdx }
            (Val.vInt 0) (some "count") =
            .ok (Val.vInt 3, mgr3, (["app"], "count"))) ∧
      Val.vInt 3 ≠ Val.vInt 0) :=
  ⟨by decide, by decide, rfl, rfl, by decide,
   C6_hook_state_persistence freshMgr ["app"] "count" (Val.vInt 0)
     (Val.vInt 3) (initialStream (Val.vInt 0)) 0
     (by decide) (by decide) rfl rfl (by decide)⟩

/-- C7: the dependency-array contract of `useEffect` is not implemented.
Every render pass that calls `useEffect` queues the effect and
`_flush_effects` runs the whole queue unconditionally; the stored `deps`
field is never read, so even `deps = []` (per the claim: run exactly once
at first mount) runs the effect on every pass.  Two simulated passes of a
component registering one effect run it twice, whatever `deps` is. -/
theorem C7_useEffect_deps_ignored :
    ∀ (deps : Option (List Val)) (f : Nat),
    ∃ mgrA mgrB mgrC mgrD : Mgr,
      useEffectModel freshMgr f deps = .ok mgrA ∧
      flushEffects mgrA = (mgrB, [f]) ∧
      useEffectModel { mgrB with currentPath := ["app"], hookIndex := 0 }
        f deps = .ok mgrC ∧
      flushEffects mgrC = (mgrD, [f]) := by
  intro deps f
  exact ⟨_, _, _, _, rfl, rfl, rfl, rfl⟩

/-- C8: a disposed stream drops every `set` with exactly one diagnostic —
value unchanged, no subscriber notified, no exception (`streamSet` is a
total function of the state) — `_notify` delivers nothing once `disposed`
is set, and `dispose` of a live stream marks it disposed, clears the
subscribers and cancels any pending debounce timer, so no subscriber can
be notified after disposal. -/
theorem C8_disposed_stream (s : StreamSt) (hd : s.disposed = true) :
    (∀ (now : Nat) (v : Val), streamSet s now v =
      { stream := s,
        diagnostics := ["Attempting to set disposed stream"],
        notified := [] }) ∧
    (∀ (now : Nat) (v : Val), (streamSet s now v).stream.value = s.value) ∧
    (∀ o n, streamNotify s o n = []) ∧
    (∀ s2 : StreamSt, s2.disposed = false →
      (streamDispose s2).disposed = true ∧
      (streamDispose s2).subscribers = [] ∧
      (streamDispose s2).debounceTimer = none) := by
  refine ⟨?_, ?_, ?_, ?_⟩
  · intro now v
    rw [streamSet, if_pos hd]
  · intro now v
    rw [streamSet, if_pos hd]
  · intro o n
    rw [streamNotify, if_pos hd]
  · intro s2 h2
    rw [streamDispose, if_neg (by simp [h2])]
    exact ⟨rfl, rfl, rfl⟩

/-- A disposed stream that still lists a subscriber, as left behind by a
dispose racing an unsubscribe; used to witness the disposed-set no-op. -/
def disposedStreamExample : StreamSt :=
  { value := Val.vNone, disposed := true, subscribers := [1],
    pendingValues := [], backpressureLimit := 1000, debounceDelay := 0,
    throttleDelay := 0, throttleLast := 0, debounceTimer := none }

theorem C8_disposed_stream_witness :
    disposedStreamExample.disposed = true ∧
    streamSet disposedStreamExample 0 (Val.vInt 9) =
      { stream := disposedStreamExample,
        diagnostics := ["Attempting to set disposed stream"],
        notified := [] } :=
  ⟨rfl, (C8_disposed_stream disposedStreamExample rfl).1 0 (Val.vInt 9)⟩

/-- C9: component expansion is depth-bounded.  Any call past `MAX_DEPTH`
raises the expansion-depth error before touching the node, and a concrete
102-level nested component tree (standing in for a self-referential
component) makes the expansion abort with that error instead of recursing
indefinitely — `expandNode` itself is total. -/
theorem C9_expansion_depth_bounded :
    (∀ (depth : Nat) (node : XNode), depth > MAX_DEPTH →
      expandNode depth node =
        .error "Component expansion depth exceeded") ∧
    (∃ e, expandNode 0 (nestedComp (MAX_DEPTH + 2)) = .error e) := by
  constructor
  · intro depth node h
    rw [expandNode.eq_def, if_pos h]
  · exact expandNode_nested_error (MAX_DEPTH + 2) 0 (by omega)

theorem C9_expansion_depth_bounded_witness :
    101 > MAX_DEPTH ∧
    expandNode 101 (nestedComp 0) =
      .error "Component expansion depth exceeded" :=
  ⟨by decide, C9_expansion_depth_bounded.1 101 (nestedComp 0) (by decide)⟩

/-- C10: in keyed children diffing, unkeyed children are invisible.  The
key maps contain only keyed children (each under its own key), and the
whole children diff is unchanged when any unkeyed child — old or new — is
replaced by an arbitrary other unkeyed child: unkeyed siblings are never
created, removed, updated, moved, or recursed into. -/
theorem C10_unkeyed_children_invisible :
    (∀ (cs : List Node) (k : String) (i : Nat) (c : Node),
      (k, i, c) ∈ buildByKey cs → c.key = some k) ∧
    (∀ (xs ys zs ws : List Node) (u u2 v v2 : Node) (p : List PathElem),
      u.key = none → u2.key = none → v.key = none → v2.key = none →
      ((zs ++ ws).any fun c => c.key.isSome) = true →
      diffChildren (xs ++ u :: ys) (zs ++ v :: ws) p =
        diffChildren (xs ++ u2 :: ys) (zs ++ v2 :: ws) p) :=
  ⟨fun _ _ _ _ h => mem_buildByKey_key h, diffChildren_unkeyed_invisible⟩

theorem C10_unkeyed_children_invisible_witness :
    ((Node.mk "label" none [("text", Val.vStr "u")] []).key = none) ∧
    ((Node.mk "label" none [("text", Val.vStr "w")] []).key = none) ∧
    ((Node.mk "label" none [("text", Val.vStr "v")] []).key = none) ∧
    ((Node.mk "label" none [("text", Val.vStr "z")] []).key = none) ∧
    ((([] ++ [Node.mk "item" (some "x") [] []] : List Node).any
      fun c => c.key.isSome) = true) ∧
    diffChildren ([] ++ Node.mk "label" none [("text", Val.vStr "u")] [] :: [])
      ([] ++ Node.mk "label" none [("text", Val.vStr "v")] [] ::
        [Node.mk "item" (some "x") [] []]) [] =
      diffChildren
        ([] ++ Node.mk "label" none [("text", Val.vStr "w")] [] :: [])
        ([] ++ Node.mk "label" none [("text", Val.vStr "z")] [] ::
          [Node.mk "item" (some "x") [] []]) [] :=
  ⟨rfl, rfl, rfl, rfl, by decide,
   C10_unkeyed_children_invisible.2 [] [] []
     [Node.mk "item" (some "x") [] []]
     (Node.mk "label" none [("text", Val.vStr "u")] [])
     (Node.mk "label" none [("text", Val.vStr "w")] [])
     (Node.mk "label" none [("text", Val.vStr "v")] [])
     (Node.mk "label" none [("text", Val.vStr "z")] []) []
     rfl rfl rfl rfl (by decide)⟩

end PyUIWizard
